import Mathlib

/-!
Verification of the matrix row-reduction / inversion engine (`algebra.py`,
class `MatrizEscada`) of the escalonamento-matriz repository.

The Python class stores a matrix of exact rationals (`fractions.Fraction`)
as a list of row lists together with an operation history and a pivot list.
We embed it shallowly: matrices are `List (List ℚ)`, the engine state is a
structure, and the imperative loops become structurally recursive functions.
-/

namespace MatrizEscada

attribute [local semireducible] Rat.add Rat.mul Rat.inv Rat.sub

/-- A matrix as stored by the Python class: a list of rows of exact rationals. -/
abbrev Mat : Type := List (List ℚ)

/-- Element access `self.matriz[i][j]`; out-of-range reads default to `0`
(all in-contract uses are within bounds). -/
def mget (m : Mat) (i j : ℕ) : ℚ := (m.getD i []).getD j 0

/-- All rows of `m` have length `c` (rectangularity). -/
def Rect (m : Mat) (c : ℕ) : Prop := ∀ r ∈ m, r.length = c

instance (m : Mat) (c : ℕ) : Decidable (Rect m c) := by
  unfold Rect; infer_instance

/-- A history entry, mirroring the Python dicts `{'tipo': 'passo', ...}` and
`{'tipo': 'matriz', ...}` appended by `registrar_operacao`. -/
inductive LogEntry : Type where
  | passo (descricao : String) : LogEntry
  | matriz (descricao : String) (matriz : Mat) : LogEntry
deriving DecidableEq

/-- The engine state: `self.matriz`, `self.historico`, `self.pivos`. -/
structure Engine : Type where
  matriz : Mat
  historico : List LogEntry
  pivos : List (ℕ × ℕ)
deriving DecidableEq

/-- `__init__`: converts every element with `Fr(...)` (the identity on exact
rationals) and initializes an empty history and pivot list.  The constructor
performs no shape validation whatsoever. -/
def init (matriz : Mat) : Engine :=
  { matriz := matriz.map (fun linha => linha.map (fun valor => valor))
    historico := []
    pivos := [] }

/-- `matriz_copia`: `[linha[:] for linha in self.matriz]` — a row-by-row copy,
the identity on values. -/
def matriz_copia (m : Mat) : Mat := m.map (fun linha => linha)

/-- `formatar_valor`: renders a rational as `"n"` or `"n/d"`. -/
def formatar_valor (valor : ℚ) : String :=
  if valor.den = 1 then toString valor.num
  else toString valor.num ++ "/" ++ toString valor.den

/-- The linear scan `for r in range(linha_inicio+1, linhas)` inside
`encontrar_pivo`, keeping the best row and its absolute value; a later row
replaces the best only on a strictly larger absolute value. -/
def pivoScan (m : Mat) (coluna : ℕ) : List ℕ → ℕ → ℚ → ℕ
  | [], max_row, _ => max_row
  | r :: rs, max_row, max_val =>
    let valor := |mget m r coluna|
    if max_val < valor then pivoScan m coluna rs r valor
    else pivoScan m coluna rs max_row max_val

/-- `encontrar_pivo`: the sentinel return value `-1` becomes `none`. -/
def encontrar_pivo (m : Mat) (coluna linha_inicio : ℕ) : Option ℕ :=
  let linhas := m.length
  if coluna ≥ (m.getD 0 []).length ∨ linha_inicio ≥ linhas then none
  else some (pivoScan m coluna (List.range' (linha_inicio + 1) (linhas - (linha_inicio + 1)))
    linha_inicio |mget m linha_inicio coluna|)

/-- `trocar_linhas`: swaps two rows when the indices differ (the Python
simultaneous assignment reads both old rows first). -/
def trocar_linhas (m : Mat) (linha1 linha2 : ℕ) : Mat :=
  if linha1 ≠ linha2 then
    (m.set linha1 (m.getD linha2 [])).set linha2 (m.getD linha1 [])
  else m

/-- `multiplicar_linha`: scales a row elementwise when the scalar is non-zero
(the unused boolean return of the Python method is dropped). -/
def multiplicar_linha (m : Mat) (linha : ℕ) (escalar : ℚ) : Mat :=
  if escalar ≠ 0 then
    m.set linha ((m.getD linha []).map (fun elemento => elemento * escalar))
  else m

/-- `combinar_linha`: `linha_alvo ← linha_alvo + escalar × linha_origem`,
built by indexing `range(len(self.matriz[linha_alvo]))` exactly as the Python
list comprehension does. -/
def combinar_linha (m : Mat) (linha_alvo linha_origem : ℕ) (escalar : ℚ) : Mat :=
  if escalar ≠ 0 then
    m.set linha_alvo ((List.range (m.getD linha_alvo []).length).map
      (fun j => mget m linha_alvo j + escalar * mget m linha_origem j))
  else m

/-- The downward-elimination inner loop of `escalonar`
(`for i in range(pivot_linha + 1, linhas)`), threading matrix and history. -/
def elimBelow (pivot_linha pivot_col : ℕ) : List ℕ → Mat → List LogEntry → Mat × List LogEntry
  | [], m, hist => (m, hist)
  | i :: resto, m, hist =>
    if mget m i pivot_col ≠ 0 then
      let escalar := -(mget m i pivot_col)
      let m' := combinar_linha m i pivot_linha escalar
      elimBelow pivot_linha pivot_col resto m'
        (hist ++ [LogEntry.matriz ("Operação III: Eliminação L" ++ toString (i + 1) ++ " ← L" ++
          toString (i + 1) ++ " + (" ++ formatar_valor escalar ++ ") × L" ++
          toString (pivot_linha + 1)) (matriz_copia m')])
    else elimBelow pivot_linha pivot_col resto m hist

/-- The forward (descending) phase of `escalonar`:
`while pivot_linha < linhas and pivot_col < colunas`.  Every iteration
advances `pivot_col` by one, so the loop runs at most `colunas - pivot_col`
more times; `fuel` is that bound, making the recursion structural. -/
def forwardLoop (fuel : ℕ) (linhas colunas : ℕ) (m : Mat) (hist : List LogEntry)
    (pivos : List (ℕ × ℕ)) (pivot_linha pivot_col passo : ℕ) :
    Mat × List LogEntry × List (ℕ × ℕ) :=
  match fuel with
  | 0 => (m, hist, pivos)
  | fuel + 1 =>
  if pivot_linha < linhas ∧ pivot_col < colunas then
    let hist1 := hist ++
      [LogEntry.passo ("--- PASSO " ++ toString passo ++ " (Fase descendente) ---")]
    match encontrar_pivo m pivot_col pivot_linha with
    | none => forwardLoop fuel linhas colunas m hist1 pivos pivot_linha (pivot_col + 1) (passo + 1)
    | some max_row =>
      if mget m max_row pivot_col = 0 then
        forwardLoop fuel linhas colunas m hist1 pivos pivot_linha (pivot_col + 1) (passo + 1)
      else
        let step1 :=
          if max_row ≠ pivot_linha then
            let ms := trocar_linhas m pivot_linha max_row
            (ms, hist1 ++ [LogEntry.matriz ("Operação I: Permuta L" ++
              toString (pivot_linha + 1) ++ " ↔ L" ++ toString (max_row + 1)) (matriz_copia ms)])
          else (m, hist1)
        let pivot_val := mget step1.1 pivot_linha pivot_col
        let step2 :=
          if pivot_val ≠ 1 then
            let escalar := if pivot_val ≠ 0 then 1 / pivot_val else 0
            let m2 := multiplicar_linha step1.1 pivot_linha escalar
            (m2, step1.2 ++ [LogEntry.matriz ("Operação II: Normalização L" ++
              toString (pivot_linha + 1) ++ " ← " ++ formatar_valor escalar ++ " × L" ++
              toString (pivot_linha + 1)) (matriz_copia m2)])
          else step1
        let pivos1 := pivos ++ [(pivot_linha, pivot_col)]
        let step3 := elimBelow pivot_linha pivot_col
          (List.range' (pivot_linha + 1) (linhas - (pivot_linha + 1))) step2.1 step2.2
        forwardLoop fuel linhas colunas step3.1 step3.2 pivos1
          (pivot_linha + 1) (pivot_col + 1) (passo + 1)
  else (m, hist, pivos)

/-- Inner loop of the ascending phase of `escalonar`: rows `linha-1 .. 0`
above the pivot (`for i in range(linha - 1, -1, -1)`). -/
def backElim (linha col : ℕ) : List ℕ → Mat → List LogEntry → Mat × List LogEntry
  | [], m, hist => (m, hist)
  | i :: resto, m, hist =>
    if mget m i col ≠ 0 then
      let escalar := -(mget m i col)
      let m' := combinar_linha m i linha escalar
      backElim linha col resto m'
        (hist ++ [LogEntry.matriz ("Operação III: Eliminação L" ++ toString (i + 1) ++ " ← L" ++
          toString (i + 1) ++ " + (" ++ formatar_valor escalar ++ ") × L" ++
          toString (linha + 1)) (matriz_copia m')])
    else backElim linha col resto m hist

/-- Outer ascending loop of `escalonar` over `reversed(self.pivos)`. -/
def backLoop : List (ℕ × ℕ) → Mat → List LogEntry → Mat × List LogEntry
  | [], m, hist => (m, hist)
  | (linha, col) :: resto, m, hist =>
    let step := backElim linha col (List.range linha).reverse m hist
    backLoop resto step.1 step.2

/-- `escalonar`: clears history and pivots, runs the descending phase, the
ascending phase and final logging; returns the final matrix together with the
updated engine state. -/
def escalonar (e : Engine) : Mat × Engine :=
  let m := e.matriz
  let linhas := m.length
  if linhas = 0 then (m, { e with historico := [], pivos := [] })
  else
    let colunas := (m.getD 0 []).length
    let hist0 := [LogEntry.matriz "Matriz inicial:" (matriz_copia m)]
    let fwd := forwardLoop colunas linhas colunas m hist0 [] 0 0 1
    let hist1 := fwd.2.1 ++ [LogEntry.passo "--- FASE ASCENDENTE (Eliminação para trás) ---"]
    let bwd := backLoop fwd.2.2.reverse fwd.1 hist1
    let histF := bwd.2 ++
      [LogEntry.matriz "Matriz na forma escalonada completa:" (matriz_copia bwd.1)]
    (bwd.1, { matriz := bwd.1, historico := histF, pivos := fwd.2.2 })

/-- The Python exceptions that can escape `calcular_inversa`. -/
inductive PyErr : Type where
  /-- `IndexError` from `self.matriz[0]` on a zero-row matrix. -/
  | indexError : PyErr
  /-- `ValueError("A matriz deve ser quadrada para ter inversa.")` -/
  | notSquare : PyErr
  /-- `ValueError("Matriz não invertível (determinante = 0)")` -/
  | notInvertible : PyErr
deriving DecidableEq

/-- Row `i` of the identity matrix of order `linhas`, as built inline by
`calcular_inversa`. -/
def idRow (linhas i : ℕ) : List ℚ := (List.range linhas).map (fun j => if i = j then 1 else 0)

/-- The identity matrix of order `n` as a row list. -/
def idMat (n : ℕ) : Mat := (List.range n).map (fun i => idRow n i)

/-- Pivot search of `calcular_inversa`: keeps the best row index and re-reads
its value at each comparison (`if abs(m[k][i]) > abs(m[pivo_linha][i])`). -/
def invPivo (m : Mat) (i : ℕ) : List ℕ → ℕ → ℕ
  | [], pivo_linha => pivo_linha
  | k :: ks, pivo_linha =>
    if |mget m pivo_linha i| < |mget m k i| then invPivo m i ks k
    else invPivo m i ks pivo_linha

/-- In-place row scaling of the augmented matrix:
`for j in range(2 * linhas): self.matriz[i][j] *= fator`
(rows have length exactly `2 * n` throughout the inversion run). -/
def escalaLinhaAum (n : ℕ) (m : Mat) (i : ℕ) (fator : ℚ) : Mat :=
  m.set i ((List.range (2 * n)).map (fun j => mget m i j * fator))

/-- In-place row combination of the augmented matrix:
`for j in range(2 * linhas): self.matriz[k][j] += fator * self.matriz[i][j]`. -/
def combinaLinhaAum (n : ℕ) (m : Mat) (k i : ℕ) (fator : ℚ) : Mat :=
  m.set k ((List.range (2 * n)).map (fun j => mget m k j + fator * mget m i j))

/-- Elimination below the pivot inside the forward loop of `calcular_inversa`
(`for k in range(i + 1, linhas)`). -/
def invElimBelow (n i : ℕ) : List ℕ → Mat → List LogEntry → Mat × List LogEntry
  | [], m, hist => (m, hist)
  | k :: ks, m, hist =>
    if mget m k i ≠ 0 then
      let fator := -(mget m k i)
      let m' := combinaLinhaAum n m k i fator
      invElimBelow n i ks m'
        (hist ++ [LogEntry.matriz ("Eliminação L" ++ toString (k + 1) ++ " ← L" ++
          toString (k + 1) ++ " + (" ++ formatar_valor fator ++ ") × L" ++
          toString (i + 1)) (matriz_copia m')])
    else invElimBelow n i ks m hist

/-- One iteration of the forward loop of `calcular_inversa` for column `i`.
Returns `none` when the selected pivot value is zero (singular matrix), and in
every case the log entries this iteration appended (its step marker included). -/
def invColuna (n : ℕ) (m : Mat) (i passo : ℕ) : Option Mat × List LogEntry :=
  let marker := LogEntry.passo ("--- PASSO " ++ toString passo ++ " (Processando coluna " ++
    toString (i + 1) ++ ") ---")
  let pivo_linha := invPivo m i (List.range' (i + 1) (n - (i + 1))) i
  if mget m pivo_linha i = 0 then (none, [marker])
  else
    let step1 :=
      if pivo_linha ≠ i then
        let m1 := trocar_linhas m i pivo_linha
        (m1, [marker, LogEntry.matriz ("Permuta L" ++ toString (i + 1) ++ " ↔ L" ++
          toString (pivo_linha + 1)) (matriz_copia m1)])
      else (m, [marker])
    let pivot_val := mget step1.1 i i
    let step2 :=
      if pivot_val ≠ 1 then
        let fator := 1 / pivot_val
        let m2 := escalaLinhaAum n step1.1 i fator
        (m2, step1.2 ++ [LogEntry.matriz ("Normalização L" ++ toString (i + 1) ++ " ← " ++
          formatar_valor fator ++ " × L" ++ toString (i + 1)) (matriz_copia m2)])
      else step1
    let step3 := invElimBelow n i (List.range' (i + 1) (n - (i + 1))) step2.1 []
    (some step3.1, step2.2 ++ step3.2)

/-- The forward loop of `calcular_inversa` (`for i in range(linhas)`),
stopping with `none` at the first singular column; `fuel` bounds the
remaining iterations (`n - i`), making the recursion structural. -/
def invForward (fuel : ℕ) (n : ℕ) (i passo : ℕ) (m : Mat) (hist : List LogEntry) :
    Option Mat × List LogEntry :=
  match fuel with
  | 0 => (some m, hist)
  | fuel + 1 =>
  if i < n then
    match invColuna n m i passo with
    | (none, entries) => (none, hist ++ entries)
    | (some m', entries) => invForward fuel n (i + 1) (passo + 1) m' (hist ++ entries)
  else (some m, hist)

/-- Inner loop of the backward phase of `calcular_inversa`
(`for k in range(i - 1, -1, -1)`). -/
def invBackElim (n i : ℕ) : List ℕ → Mat → List LogEntry → Mat × List LogEntry
  | [], m, hist => (m, hist)
  | k :: ks, m, hist =>
    if mget m k i ≠ 0 then
      let fator := -(mget m k i)
      let m' := combinaLinhaAum n m k i fator
      invBackElim n i ks m'
        (hist ++ [LogEntry.matriz ("Eliminação L" ++ toString (k + 1) ++ " ← L" ++
          toString (k + 1) ++ " + (" ++ formatar_valor fator ++ ") × L" ++
          toString (i + 1)) (matriz_copia m')])
    else invBackElim n i ks m hist

/-- Outer backward loop of `calcular_inversa`
(`for i in range(linhas - 1, 0, -1)`), over an explicit index list. -/
def invBackward (n : ℕ) : List ℕ → Mat → List LogEntry → Mat × List LogEntry
  | [], m, hist => (m, hist)
  | i :: is, m, hist =>
    let step := invBackElim n i (List.range i).reverse m hist
    invBackward n is step.1 step.2

/-- `calcular_inversa`: clears the history, reads the column count from row 0
(`IndexError` on a zero-row matrix), rejects non-square input, then runs
Gauss-Jordan on the augmented matrix `[A|I]`.  On a zero pivot the working
matrix is restored to the original and `NotInvertible` escapes with the
partial history kept; on success the extracted right half is returned and the
stored matrix is restored to the original. -/
def calcular_inversa (e : Engine) : Except PyErr Mat × Engine :=
  let linhas := e.matriz.length
  match e.matriz with
  | [] => (Except.error PyErr.indexError, { e with historico := [] })
  | linha0 :: _ =>
    let colunas := linha0.length
    if linhas ≠ colunas then (Except.error PyErr.notSquare, { e with historico := [] })
    else
      let matriz_aumentada := (List.range linhas).map
        (fun i => (e.matriz.getD i []) ++ idRow linhas i)
      let hist0 := [LogEntry.matriz "Matriz aumentada [A|I] inicial:"
        (matriz_copia matriz_aumentada)]
      match invForward linhas linhas 0 1 matriz_aumentada hist0 with
      | (none, hist) => (Except.error PyErr.notInvertible,
          { matriz := e.matriz, historico := hist, pivos := e.pivos })
      | (some mF, hist) =>
        let hist1 := hist ++ [LogEntry.passo "--- FASE DE ELIMINAÇÃO PARA TRÁS ---"]
        let bwd := invBackward linhas ((List.range' 1 (linhas - 1)).reverse) mF hist1
        let inversa := (List.range linhas).map (fun i => (bwd.1.getD i []).drop linhas)
        let histF := bwd.2 ++ [LogEntry.matriz "Matriz inversa extraída:" (matriz_copia inversa)]
        (Except.ok inversa, { matriz := e.matriz, historico := histF, pivos := e.pivos })

/-- Accumulated sum `for k in range(n): acc += f k`. -/
def dotSum (n : ℕ) (f : ℕ → ℚ) : ℚ := ((List.range n).map f).sum

/-- `verificar_inversa`: triple-loop exact product, then elementwise comparison
with the identity; returns the flag together with the computed product. -/
def verificar_inversa (matriz_original matriz_inversa : Mat) : Bool × Mat :=
  let n := matriz_original.length
  let produto := (List.range n).map (fun i => (List.range n).map (fun j =>
    dotSum n (fun k => mget matriz_original i k * mget matriz_inversa k j)))
  let ok := (List.range n).all (fun i => (List.range n).all (fun j =>
    mget produto i j == (if i = j then (1 : ℚ) else 0)))
  (ok, produto)

/-- Row `i` of `m` has its leading (first) non-zero entry at column `c`. -/
def LeadsAt (m : Mat) (i c : ℕ) : Prop :=
  c < (m.getD i []).length ∧ mget m i c ≠ 0 ∧ ∀ c', c' < c → mget m i c' = 0

/-- Reduced row-echelon form, phrased entrywise as in the claim: each
non-zero row's leading entry equals 1; a column holding such a leading 1 is
zero in every other row; leading columns strictly increase with the row
index; all fully zero rows are trailing. -/
def IsRREF (m : Mat) : Prop :=
  (∀ i c, i < m.length → LeadsAt m i c → mget m i c = 1) ∧
  (∀ i c, i < m.length → LeadsAt m i c → ∀ i', i' < m.length → i' ≠ i → mget m i' c = 0) ∧
  (∀ i i' c c', i < i' → i' < m.length → LeadsAt m i c → LeadsAt m i' c' → c < c') ∧
  (∀ i i', i ≤ i' → i' < m.length → (∀ j, mget m i j = 0) → ∀ j, mget m i' j = 0)

/-- Invariant of the forward (descending) phase of `escalonar` at cursor
position `(pr, pc)` with recorded pivots `pivos`. -/
structure FwdInv (linhas colunas : ℕ) (m : Mat) (pivos : List (ℕ × ℕ)) (pr pc : ℕ) : Prop where
  len : m.length = linhas
  rect : Rect m colunas
  prle : pr ≤ linhas
  pcle : pc ≤ colunas
  piv_len : pivos.length = pr
  piv_row : ∀ (t : ℕ) (ht : t < pivos.length), (pivos.get ⟨t, ht⟩).1 = t
  piv_col_lt : ∀ p ∈ pivos, p.2 < pc
  piv_col_mono : ∀ (t t' : ℕ) (ht : t < pivos.length) (ht' : t' < pivos.length),
    t < t' → (pivos.get ⟨t, ht⟩).2 < (pivos.get ⟨t', ht'⟩).2
  piv_one : ∀ p ∈ pivos, mget m p.1 p.2 = 1
  piv_below : ∀ p ∈ pivos, ∀ i, p.1 < i → i < m.length → mget m i p.2 = 0
  piv_left : ∀ p ∈ pivos, ∀ c', c' < p.2 → mget m p.1 c' = 0
  block : ∀ i, pr ≤ i → i < m.length → ∀ c', c' < pc → mget m i c' = 0

/-- Invariant of the backward (ascending) phase of `escalonar`: pivots with
index `≥ s` have already been cleared above; `s` counts down to `0`. -/
structure BwdInv (linhas colunas : ℕ) (m : Mat) (pivos : List (ℕ × ℕ)) (s : ℕ) : Prop where
  len : m.length = linhas
  rect : Rect m colunas
  piv_len_le : pivos.length ≤ linhas
  piv_row : ∀ (t : ℕ) (ht : t < pivos.length), (pivos.get ⟨t, ht⟩).1 = t
  piv_col_lt : ∀ p ∈ pivos, p.2 < colunas
  piv_col_mono : ∀ (t t' : ℕ) (ht : t < pivos.length) (ht' : t' < pivos.length),
    t < t' → (pivos.get ⟨t, ht⟩).2 < (pivos.get ⟨t', ht'⟩).2
  piv_one : ∀ p ∈ pivos, mget m p.1 p.2 = 1
  piv_below : ∀ p ∈ pivos, ∀ i, p.1 < i → i < m.length → mget m i p.2 = 0
  piv_left : ∀ p ∈ pivos, ∀ c', c' < p.2 → mget m p.1 c' = 0
  tail_zero : ∀ i, pivos.length ≤ i → i < m.length → ∀ j, mget m i j = 0
  above : ∀ (t : ℕ) (ht : t < pivos.length), s ≤ t →
    ∀ i, i < t → mget m i (pivos.get ⟨t, ht⟩).2 = 0

/-- The square `Fin`-indexed matrix read off the first `n` columns of a row
list (for an augmented matrix `[A|I]` this is the left half). -/
def toMat (n : ℕ) (m : Mat) : Matrix (Fin n) (Fin n) ℚ :=
  Matrix.of (fun i j => mget m i.1 j.1)

/-- Invariant of the forward phase of `calcular_inversa` on the augmented
matrix, before processing column `i`: columns `< i` carry a unit diagonal
with zeros below, and every row of the left half is the product of the
corresponding right-half row with the original matrix `A`. -/
structure InvFwdS (n : ℕ) (A : Mat) (m : Mat) (i : ℕ) : Prop where
  len : m.length = n
  rect : Rect m (2 * n)
  ile : i ≤ n
  diag : ∀ t, t < i → mget m t t = 1
  below : ∀ t, t < i → ∀ k, t < k → k < n → mget m k t = 0
  rel : ∀ r, r < n → ∀ j, j < n →
    mget m r j = dotSum n (fun k => mget m r (n + k) * mget A k j)

/-- Invariant of the backward phase of `calcular_inversa`: columns `> s` have
additionally been cleared above the diagonal. -/
structure InvBack (n : ℕ) (A : Mat) (m : Mat) (s : ℕ) : Prop where
  len : m.length = n
  rect : Rect m (2 * n)
  diag : ∀ t, t < n → mget m t t = 1
  below : ∀ t, t < n → ∀ k, t < k → k < n → mget m k t = 0
  above : ∀ t, s < t → t < n → ∀ k, k < t → mget m k t = 0
  rel : ∀ r, r < n → ∀ j, j < n →
    mget m r j = dotSum n (fun k => mget m r (n + k) * mget A k j)

/-! ### Object-identity model of the mutable rows

Python rows are mutable list objects: `self.matriz` holds references, a
snapshot produced by `matriz_copia` (`[linha[:] for linha in self.matriz]`)
holds fresh row objects, and `calcular_inversa` updates row elements in
place.  To settle whether later mutation can reach an earlier history entry,
rows are given explicit identities in a heap: `Heap.rows` maps an identity
(its index) to the row contents it currently holds, every row literal or
slice evaluated by the code allocates the next fresh identity, and the live
matrix is the list of identities held by `self.matriz`.  The log keeps, for
each `'matriz'` history entry, the identities its copy allocated together
with the value they held at logging time; step markers hold no rows and are
omitted.  The algorithms below repeat `escalonar` and `calcular_inversa`
exactly at this level: swaps redirect positions, `multiplicar_linha` and
`combinar_linha` build fresh rows, and the inversion's element loops write
the designated row object in place. -/

structure Heap where
  rows : List (List ℚ)

def hlen (h : Heap) : ℕ := h.rows.length

def hread (h : Heap) (r : ℕ) : List ℚ := h.rows.getD r []

def hwrite (h : Heap) (r : ℕ) (v : List ℚ) : Heap := ⟨h.rows.set r v⟩

def halloc (h : Heap) (v : List ℚ) : Heap × ℕ := (⟨h.rows ++ [v]⟩, h.rows.length)

def hallocList (h : Heap) : List (List ℚ) → Heap × List ℕ
  | [] => (h, [])
  | v :: vs =>
    let p := halloc h v
    let q := hallocList p.1 vs
    (q.1, p.2 :: q.2)

/-- The matrix value currently designated by a list of row identities. -/
def hderef (h : Heap) (live : List ℕ) : Mat := live.map (hread h)

/-- One logged `'matriz'` entry: the identities its copy allocated, with the
matrix value recorded at logging time. -/
abbrev HLog : Type := List (List ℕ × Mat)

/-- The mutable state of the engine: the heap of row objects, the identities
held by `self.matriz`, and the snapshot log. -/
structure HState where
  heap : Heap
  live : List ℕ
  log : HLog

/-- `__init__` at the object level: the row comprehension allocates one fresh
row object per input row (`Fr` conversion is the identity on rationals). -/
def hinit (m : Mat) : Heap × List ℕ := hallocList ⟨[]⟩ m

/-- `matriz_copia` at the object level: `[linha[:] for linha in self.matriz]`
allocates one fresh row object per live row, holding the same contents. -/
def hcopia (h : Heap) (live : List ℕ) : Heap × List ℕ :=
  hallocList h (live.map (hread h))

/-- Logging a `'matriz'` history entry: run `matriz_copia`, then append the
fresh identities paired with the value they designate at this instant. -/
def hsnapshot (h : Heap) (live : List ℕ) (log : HLog) : Heap × HLog :=
  let p := hcopia h live
  (p.1, log ++ [(p.2, hderef p.1 p.2)])

/-- `trocar_linhas` at the object level: the simultaneous assignment swaps
which row objects the two positions designate; no row contents change. -/
def htrocar (live : List ℕ) (linha1 linha2 : ℕ) : List ℕ :=
  if linha1 ≠ linha2 then
    (live.set linha1 (live.getD linha2 0)).set linha2 (live.getD linha1 0)
  else live

/-- `multiplicar_linha` at the object level: the list comprehension builds a
fresh row object and position `linha` is redirected to it. -/
def hmultiplicar (h : Heap) (live : List ℕ) (linha : ℕ) (escalar : ℚ) :
    Heap × List ℕ :=
  if escalar ≠ 0 then
    let p := halloc h ((hread h (live.getD linha 0)).map (fun elemento => elemento * escalar))
    (p.1, live.set linha p.2)
  else (h, live)

/-- `combinar_linha` at the object level: `nova_linha` is a fresh row object
and position `linha_alvo` is redirected to it. -/
def hcombinar (h : Heap) (live : List ℕ) (linha_alvo linha_origem : ℕ)
    (escalar : ℚ) : Heap × List ℕ :=
  if escalar ≠ 0 then
    let p := halloc h ((List.range (hread h (live.getD linha_alvo 0)).length).map
      (fun j => mget (hderef h live) linha_alvo j
        + escalar * mget (hderef h live) linha_origem j))
    (p.1, live.set linha_alvo p.2)
  else (h, live)

/-- The downward-elimination inner loop of `escalonar` at the object level
(also the body shape of the ascending inner loop, whose operations on rows
are identical). -/
def helimBelow (pivot_linha pivot_col : ℕ) : List ℕ → HState → HState
  | [], s => s
  | i :: resto, s =>
    if mget (hderef s.heap s.live) i pivot_col ≠ 0 then
      let escalar := -(mget (hderef s.heap s.live) i pivot_col)
      let p := hcombinar s.heap s.live i pivot_linha escalar
      let q := hsnapshot p.1 p.2 s.log
      helimBelow pivot_linha pivot_col resto ⟨q.1, p.2, q.2⟩
    else helimBelow pivot_linha pivot_col resto s

/-- The descending phase of `escalonar` at the object level. -/
def hforwardLoop (fuel : ℕ) (linhas colunas : ℕ) (s : HState)
    (pivos : List (ℕ × ℕ)) (pivot_linha pivot_col : ℕ) :
    HState × List (ℕ × ℕ) :=
  match fuel with
  | 0 => (s, pivos)
  | fuel + 1 =>
  if pivot_linha < linhas ∧ pivot_col < colunas then
    match encontrar_pivo (hderef s.heap s.live) pivot_col pivot_linha with
    | none => hforwardLoop fuel linhas colunas s pivos pivot_linha (pivot_col + 1)
    | some max_row =>
      if mget (hderef s.heap s.live) max_row pivot_col = 0 then
        hforwardLoop fuel linhas colunas s pivos pivot_linha (pivot_col + 1)
      else
        let step1 : HState :=
          if max_row ≠ pivot_linha then
            let live1 := htrocar s.live pivot_linha max_row
            let q := hsnapshot s.heap live1 s.log
            ⟨q.1, live1, q.2⟩
          else s
        let pivot_val := mget (hderef step1.heap step1.live) pivot_linha pivot_col
        let step2 : HState :=
          if pivot_val ≠ 1 then
            let escalar := if pivot_val ≠ 0 then 1 / pivot_val else 0
            let p := hmultiplicar step1.heap step1.live pivot_linha escalar
            let q := hsnapshot p.1 p.2 step1.log
            ⟨q.1, p.2, q.2⟩
          else step1
        let step3 := helimBelow pivot_linha pivot_col
          (List.range' (pivot_linha + 1) (linhas - (pivot_linha + 1))) step2
        hforwardLoop fuel linhas colunas step3 (pivos ++ [(pivot_linha, pivot_col)])
          (pivot_linha + 1) (pivot_col + 1)
  else (s, pivos)

/-- Outer ascending loop of `escalonar` at the object level: the inner loop
performs the same row operations as `helimBelow`. -/
def hbackLoop : List (ℕ × ℕ) → HState → HState
  | [], s => s
  | (linha, col) :: resto, s =>
    hbackLoop resto (helimBelow linha col (List.range linha).reverse s)

/-- `escalonar` at the object level: initial snapshot, descending phase,
ascending phase, final snapshot. -/
def hescalonar (h : Heap) (live : List ℕ) : HState :=
  let linhas := live.length
  if linhas = 0 then ⟨h, live, []⟩
  else
    let colunas := (hread h (live.getD 0 0)).length
    let s0 := hsnapshot h live []
    let fwd := hforwardLoop colunas linhas colunas ⟨s0.1, live, s0.2⟩ [] 0 0
    let bwd := hbackLoop fwd.2.reverse fwd.1
    let sF := hsnapshot bwd.heap bwd.live bwd.log
    ⟨sF.1, bwd.live, sF.2⟩

/-- Elimination below the pivot inside the forward loop of `calcular_inversa`
at the object level: `self.matriz[k][j] += fator * self.matriz[i][j]` writes
the row object designated at position `k` in place.  The backward phase
performs the identical writes, so it reuses this loop. -/
def hinvElimBelow (n i : ℕ) : List ℕ → HState → HState
  | [], s => s
  | k :: ks, s =>
    if mget (hderef s.heap s.live) k i ≠ 0 then
      let fator := -(mget (hderef s.heap s.live) k i)
      let h2 := hwrite s.heap (s.live.getD k 0)
        ((List.range (2 * n)).map (fun j => mget (hderef s.heap s.live) k j
          + fator * mget (hderef s.heap s.live) i j))
      let q := hsnapshot h2 s.live s.log
      hinvElimBelow n i ks ⟨q.1, s.live, q.2⟩
    else hinvElimBelow n i ks s

/-- One forward column of `calcular_inversa` at the object level: `false`
when the selected pivot is zero (nothing was logged for this column beyond
its step marker, which holds no rows). -/
def hinvColuna (n : ℕ) (s : HState) (i : ℕ) : Bool × HState :=
  let pivo_linha := invPivo (hderef s.heap s.live) i
    (List.range' (i + 1) (n - (i + 1))) i
  if mget (hderef s.heap s.live) pivo_linha i = 0 then (false, s)
  else
    let s1 : HState :=
      if pivo_linha ≠ i then
        let live1 := htrocar s.live i pivo_linha
        let q := hsnapshot s.heap live1 s.log
        ⟨q.1, live1, q.2⟩
      else s
    let pivot_val := mget (hderef s1.heap s1.live) i i
    let s2 : HState :=
      if pivot_val ≠ 1 then
        let fator := 1 / pivot_val
        let h2 := hwrite s1.heap (s1.live.getD i 0)
          ((List.range (2 * n)).map (fun j => mget (hderef s1.heap s1.live) i j * fator))
        let q := hsnapshot h2 s1.live s1.log
        ⟨q.1, s1.live, q.2⟩
      else s1
    (true, hinvElimBelow n i (List.range' (i + 1) (n - (i + 1))) s2)

/-- The forward loop of `calcular_inversa` at the object level. -/
def hinvForward (fuel n i : ℕ) (s : HState) : Bool × HState :=
  match fuel with
  | 0 => (true, s)
  | fuel + 1 =>
    if i < n then
      let p := hinvColuna n s i
      if p.1 then hinvForward fuel n (i + 1) p.2 else (false, p.2)
    else (true, s)

/-- The backward phase of `calcular_inversa` at the object level. -/
def hinvBackward (n : ℕ) : List ℕ → HState → HState
  | [], s => s
  | i :: il, s => hinvBackward n il (hinvElimBelow n i (List.range i).reverse s)

/-- `calcular_inversa` at the object level: the history is cleared; the
augmented rows are fresh objects built from slices of the original rows; on
a zero pivot the live matrix is restored to the original row objects and the
log is kept; on success the extracted inverse rows are fresh slices and the
final entry copies them once more, after which the original row objects are
restored.  The `IndexError` and non-square guards end the run before any row
operation. -/
def hcalcular_inversa (h : Heap) (live : List ℕ) : HState :=
  let linhas := live.length
  if linhas = 0 ∨ linhas ≠ (hread h (live.getD 0 0)).length then ⟨h, live, []⟩
  else
    let aug := hallocList h ((List.range linhas).map
      (fun i => hread h (live.getD i 0) ++ idRow linhas i))
    let s0 := hsnapshot aug.1 aug.2 []
    let fwd := hinvForward linhas linhas 0 ⟨s0.1, aug.2, s0.2⟩
    if fwd.1 = false then ⟨fwd.2.heap, live, fwd.2.log⟩
    else
      let bwd := hinvBackward linhas (List.range' 1 (linhas - 1)).reverse fwd.2
      let inv := hallocList bwd.heap ((List.range linhas).map
        (fun i => (hread bwd.heap (bwd.live.getD i 0)).drop linhas))
      let sF := hsnapshot inv.1 inv.2 bwd.log
      ⟨sF.1, live, sF.2⟩

/-- All live row identities are allocated. -/
def LiveOk (h : Heap) (live : List ℕ) : Prop := ∀ r ∈ live, r < hlen h

/-- Snapshot integrity: every logged entry's identities are allocated, are
not designated by the live matrix, and still hold the recorded value. -/
def LogOk (h : Heap) (live : List ℕ) (log : HLog) : Prop :=
  ∀ e ∈ log, (∀ r ∈ e.1, r < hlen h ∧ r ∉ live) ∧ hderef h e.1 = e.2

/-- The loop invariant of the object-level runs: the live matrix keeps its
row count, designates allocated rows, and the log has snapshot integrity. -/
def SOk (linhas : ℕ) (s : HState) : Prop :=
  s.live.length = linhas ∧ LiveOk s.heap s.live ∧ LogOk s.heap s.live s.log

/-- What survives once the live matrix is redirected (restoration, fresh
extraction): every logged entry is allocated and still holds its recorded
value. -/
def LogClosed (h : Heap) (log : HLog) : Prop :=
  ∀ e ∈ log, (∀ r ∈ e.1, r < hlen h) ∧ hderef h e.1 = e.2

/-! ### Basic lemmas about element access and the four row primitives -/

theorem getD_of_length_le {l : List ℚ} {j : ℕ} (h : l.length ≤ j) : l.getD j 0 = 0 := by
  rw [List.getD_eq_getElem?_getD, List.getElem?_eq_none h, Option.getD_none]

theorem getD_map_mul (l : List ℚ) (esc : ℚ) (j : ℕ) :
    (l.map (fun e => e * esc)).getD j 0 = l.getD j 0 * esc := by
  rcases lt_or_le j l.length with hj | hj
  · rw [List.getD_eq_getElem?_getD, List.getD_eq_getElem?_getD, List.getElem?_map,
      List.getElem?_eq_getElem hj]
    rfl
  · rw [getD_of_length_le (by simpa using hj), getD_of_length_le hj, zero_mul]

theorem getD_range_map (c : ℕ) (f : ℕ → ℚ) (j : ℕ) :
    ((List.range c).map f).getD j 0 = if j < c then f j else 0 := by
  rcases lt_or_le j c with hj | hj
  · rw [List.getD_eq_getElem?_getD, List.getElem?_map, List.getElem?_range hj, if_pos hj]
    rfl
  · rw [getD_of_length_le (by simpa using hj), if_neg (not_lt.2 hj)]

theorem getD_row_of_length_le {m : Mat} {i : ℕ} (h : m.length ≤ i) : m.getD i [] = [] := by
  rw [List.getD_eq_getElem?_getD, List.getElem?_eq_none h, Option.getD_none]

theorem mget_of_length_le {m : Mat} {i : ℕ} (h : m.length ≤ i) (j : ℕ) : mget m i j = 0 := by
  unfold mget
  rw [getD_row_of_length_le h]
  rfl

theorem getD_row_length {m : Mat} {c : ℕ} (hm : Rect m c) {i : ℕ} (hi : i < m.length) :
    (m.getD i []).length = c := by
  rw [List.getD_eq_getElem?_getD, List.getElem?_eq_getElem hi]
  exact hm _ (List.getElem_mem hi)

theorem mget_of_col_le {m : Mat} {c : ℕ} (hm : Rect m c) {j : ℕ} (hj : c ≤ j) (i : ℕ) :
    mget m i j = 0 := by
  rcases lt_or_le i m.length with hi | hi
  · exact getD_of_length_le ((getD_row_length hm hi).le.trans hj)
  · exact mget_of_length_le hi j

theorem getD_set (m : Mat) (i : ℕ) (r : List ℚ) (i' : ℕ) :
    (m.set i r).getD i' [] = if i = i' ∧ i < m.length then r else m.getD i' [] := by
  rcases eq_or_ne i i' with h | h
  · subst h
    rcases lt_or_le i m.length with hlt | hle
    · rw [if_pos ⟨rfl, hlt⟩, List.getD_eq_getElem?_getD, List.getElem?_set_self hlt,
        Option.getD_some]
    · rw [if_neg (fun hc => absurd hc.2 (not_lt.2 hle)), List.set_eq_of_length_le hle]
  · rw [if_neg (fun hc => h hc.1), List.getD_eq_getElem?_getD, List.getElem?_set_ne h,
      List.getD_eq_getElem?_getD]

theorem mget_set (m : Mat) (i : ℕ) (r : List ℚ) (i' j : ℕ) :
    mget (m.set i r) i' j =
      if i = i' ∧ i < m.length then r.getD j 0 else mget m i' j := by
  unfold mget
  rw [getD_set]
  split <;> rfl

theorem length_trocar (m : Mat) (l1 l2 : ℕ) : (trocar_linhas m l1 l2).length = m.length := by
  unfold trocar_linhas
  split <;> simp

theorem length_multiplicar (m : Mat) (l : ℕ) (esc : ℚ) :
    (multiplicar_linha m l esc).length = m.length := by
  unfold multiplicar_linha
  split <;> simp

theorem length_combinar (m : Mat) (a o : ℕ) (esc : ℚ) :
    (combinar_linha m a o esc).length = m.length := by
  unfold combinar_linha
  split <;> simp

theorem length_escalaAum (n : ℕ) (m : Mat) (i : ℕ) (f : ℚ) :
    (escalaLinhaAum n m i f).length = m.length := by
  unfold escalaLinhaAum
  simp

theorem length_combinaAum (n : ℕ) (m : Mat) (k i : ℕ) (f : ℚ) :
    (combinaLinhaAum n m k i f).length = m.length := by
  unfold combinaLinhaAum
  simp

theorem rect_set {m : Mat} {c : ℕ} (hm : Rect m c) {r : List ℚ} (hr : r.length = c) (i : ℕ) :
    Rect (m.set i r) c := by
  intro row hrow
  rcases List.mem_or_eq_of_mem_set hrow with h | h
  · exact hm _ h
  · exact h ▸ hr

theorem rect_trocar {m : Mat} {c : ℕ} (hm : Rect m c) {l1 l2 : ℕ}
    (h1 : l1 < m.length) (h2 : l2 < m.length) : Rect (trocar_linhas m l1 l2) c := by
  unfold trocar_linhas
  split
  · exact rect_set (rect_set hm (getD_row_length hm h2) l1) (getD_row_length hm h1) l2
  · exact hm

theorem rect_multiplicar {m : Mat} {c : ℕ} (hm : Rect m c) (l : ℕ) (esc : ℚ) :
    Rect (multiplicar_linha m l esc) c := by
  unfold multiplicar_linha
  split
  · rcases lt_or_le l m.length with hl | hl
    · exact rect_set hm (by simpa using getD_row_length hm hl) l
    · rw [List.set_eq_of_length_le (by simpa using hl)]
      exact hm
  · exact hm

theorem rect_combinar {m : Mat} {c : ℕ} (hm : Rect m c) {a : ℕ} (o : ℕ) (esc : ℚ)
    (ha : a < m.length) : Rect (combinar_linha m a o esc) c := by
  unfold combinar_linha
  split
  · exact rect_set hm (by simpa using getD_row_length hm ha) a
  · exact hm

theorem rect_escalaAum {m : Mat} {n : ℕ} (hm : Rect m (2 * n)) (i : ℕ) (f : ℚ) :
    Rect (escalaLinhaAum n m i f) (2 * n) := by
  unfold escalaLinhaAum
  exact rect_set hm (by simp) i

theorem rect_combinaAum {m : Mat} {n : ℕ} (hm : Rect m (2 * n)) (k i : ℕ) (f : ℚ) :
    Rect (combinaLinhaAum n m k i f) (2 * n) := by
  unfold combinaLinhaAum
  exact rect_set hm (by simp) k

theorem mget_trocar {m : Mat} {l1 l2 : ℕ} (h1 : l1 < m.length) (h2 : l2 < m.length)
    (i j : ℕ) :
    mget (trocar_linhas m l1 l2) i j =
      if i = l1 then mget m l2 j else if i = l2 then mget m l1 j else mget m i j := by
  unfold trocar_linhas
  rcases eq_or_ne l1 l2 with heq | hne
  · subst heq
    rw [if_neg (fun h => h rfl)]
    rcases eq_or_ne i l1 with h | h <;> simp [h]
  · rw [if_pos hne, mget_set, mget_set]
    simp only [List.length_set]
    rcases eq_or_ne i l2 with h | h
    · subst h
      rw [if_pos ⟨rfl, h2⟩, if_neg (fun hh => hne hh.symm), if_pos rfl]
      rfl
    · rw [if_neg (fun hc => h hc.1.symm)]
      rcases eq_or_ne i l1 with h' | h'
      · subst h'
        rw [if_pos ⟨rfl, h1⟩, if_pos rfl]
        rfl
      · rw [if_neg (fun hc => h' hc.1.symm), if_neg h', if_neg h]

theorem mget_multiplicar (m : Mat) (l : ℕ) (esc : ℚ) (i j : ℕ) :
    mget (multiplicar_linha m l esc) i j =
      if i = l ∧ esc ≠ 0 then mget m l j * esc else mget m i j := by
  unfold multiplicar_linha
  split
  next hesc =>
    rw [mget_set]
    rcases eq_or_ne i l with h | h
    · subst h
      rcases lt_or_le i m.length with hl | hl
      · rw [if_pos ⟨rfl, hl⟩, if_pos ⟨rfl, hesc⟩, getD_map_mul]
        rfl
      · rw [if_neg (fun hc => absurd hc.2 (not_lt.2 hl)), if_pos ⟨rfl, hesc⟩,
          mget_of_length_le hl, zero_mul]
    · rw [if_neg (fun hc => h hc.1.symm), if_neg (fun hc => h hc.1)]
  next hesc =>
    rw [if_neg (fun hc => hesc hc.2)]

theorem mget_combinar {m : Mat} {c : ℕ} (hm : Rect m c) {a : ℕ} (o : ℕ) (esc : ℚ)
    (ha : a < m.length) (i j : ℕ) :
    mget (combinar_linha m a o esc) i j =
      if i = a ∧ esc ≠ 0 ∧ j < c then mget m a j + esc * mget m o j else mget m i j := by
  unfold combinar_linha
  split
  next hesc =>
    rw [mget_set]
    rcases eq_or_ne i a with h | h
    · subst h
      rw [if_pos ⟨rfl, ha⟩, getD_row_length hm ha, getD_range_map]
      rcases lt_or_le j c with hj | hj
      · rw [if_pos hj, if_pos ⟨rfl, hesc, hj⟩]
      · rw [if_neg (not_lt.2 hj), if_neg (fun hc => absurd hc.2.2 (not_lt.2 hj))]
        exact (mget_of_col_le hm hj i).symm
    · rw [if_neg (fun hc => h hc.1.symm), if_neg (fun hc => h hc.1)]
  next hesc =>
    rw [if_neg (fun hc => hesc hc.2.1)]

theorem mget_escalaAum {m : Mat} {n : ℕ} (hm : Rect m (2 * n)) (i : ℕ) (f : ℚ) (i' j : ℕ) :
    mget (escalaLinhaAum n m i f) i' j =
      if i' = i ∧ i < m.length then mget m i j * f else mget m i' j := by
  unfold escalaLinhaAum
  rw [mget_set, getD_range_map]
  rcases eq_or_ne i i' with h | h
  · subst h
    rcases lt_or_le i m.length with hl | hl
    · rw [if_pos ⟨rfl, hl⟩]
      rcases lt_or_le j (2 * n) with hj | hj
      · rw [if_pos hj, if_pos ⟨rfl, hl⟩]
      · rw [if_neg (not_lt.2 hj), mget_of_col_le hm hj, zero_mul, if_pos ⟨rfl, hl⟩]
    · rw [if_neg (fun hc => absurd hc.2 (not_lt.2 hl)),
        if_neg (fun hc => absurd hc.2 (not_lt.2 hl))]
  · rw [if_neg (fun hc => h hc.1), if_neg (fun hc => h hc.1.symm)]

theorem mget_combinaAum {m : Mat} {n : ℕ} (hm : Rect m (2 * n)) (k i : ℕ) (f : ℚ) (i' j : ℕ) :
    mget (combinaLinhaAum n m k i f) i' j =
      if i' = k ∧ k < m.length then mget m k j + f * mget m i j else mget m i' j := by
  unfold combinaLinhaAum
  rw [mget_set, getD_range_map]
  rcases eq_or_ne k i' with h | h
  · subst h
    rcases lt_or_le k m.length with hl | hl
    · rw [if_pos ⟨rfl, hl⟩]
      rcases lt_or_le j (2 * n) with hj | hj
      · rw [if_pos hj, if_pos ⟨rfl, hl⟩]
      · rw [if_neg (not_lt.2 hj), mget_of_col_le hm hj, mget_of_col_le hm hj, mul_zero,
          add_zero, if_pos ⟨rfl, hl⟩]
    · rw [if_neg (fun hc => absurd hc.2 (not_lt.2 hl)),
        if_neg (fun hc => absurd hc.2 (not_lt.2 hl))]
  · rw [if_neg (fun hc => h hc.1), if_neg (fun hc => h hc.1.symm)]

theorem matriz_copia_eq (m : Mat) : matriz_copia m = m := by
  simp [matriz_copia]

theorem init_eq (m : Mat) : init m = { matriz := m, historico := [], pivos := [] } := by
  simp [init]

/-! ### Claim C5 — construction of a ragged matrix -/

/-- C5 counterexample: the claim says constructing from rows of differing
lengths fails with a `RaggedMatrix` error, but `__init__` performs no
rectangularity check at all: on the ragged input `[[1], [2, 3]]` (row lengths
1 and 2) construction succeeds and stores the rows as given. -/
theorem C5_counterexample :
    (([[1], [2, 3]] : Mat).getD 0 []).length ≠ (([[1], [2, 3]] : Mat).getD 1 []).length ∧
    init [[1], [2, 3]] = { matriz := [[1], [2, 3]], historico := [], pivos := [] } := by
  exact ⟨by decide, by simp [init]⟩

/-- C5 (amended): construction never fails and performs no rectangularity
check; for every input — ragged or not — the constructor stores the
elementwise `Fraction` conversion of the rows (the values unchanged) with an
empty history and pivot list. -/
theorem C5_init_unchecked (m : Mat) :
    init m = { matriz := m, historico := [], pivos := [] } := by
  simp [init]

/-! ### Claim C8 — non-square input to `calcular_inversa` -/

/-- C8: on a non-empty, rectangular, non-square matrix `calcular_inversa`
fails with the `NotSquare` error (`ValueError "A matriz deve ser quadrada
para ter inversa."`) before performing any row operation: the stored matrix
and pivot list are unchanged (only the history is cleared, as the method does
on entry). -/
theorem C8_nonsquare_notSquare (e : Engine) (c : ℕ) (hne : e.matriz ≠ [])
    (hrect : Rect e.matriz c) (hsq : e.matriz.length ≠ c) :
    calcular_inversa e =
      (Except.error PyErr.notSquare,
       { matriz := e.matriz, historico := [], pivos := e.pivos }) := by
  obtain ⟨m, hist, pv⟩ := e
  match m, hne with
  | linha0 :: resto, _ =>
    have hc : linha0.length = c := hrect _ (List.mem_cons_self _ _)
    have hcond : (linha0 :: resto : Mat).length ≠ linha0.length := by
      rw [hc]
      exact hsq
    show calcular_inversa ⟨linha0 :: resto, hist, pv⟩ = _
    unfold calcular_inversa
    dsimp only
    rw [if_pos hcond]

/-- C8 witness at the 2×3 matrix `[[1,2,3],[4,5,6]]`. -/
theorem C8_witness :
    (init [[1, 2, 3], [4, 5, 6]]).matriz ≠ [] ∧
    Rect (init [[1, 2, 3], [4, 5, 6]]).matriz 3 ∧
    (init [[1, 2, 3], [4, 5, 6]]).matriz.length ≠ 3 ∧
    calcular_inversa (init [[1, 2, 3], [4, 5, 6]]) =
      (Except.error PyErr.notSquare,
       { matriz := [[1, 2, 3], [4, 5, 6]], historico := [], pivos := [] }) :=
  ⟨by decide, by decide, by decide,
    C8_nonsquare_notSquare (init [[1, 2, 3], [4, 5, 6]]) 3 (by decide) (by decide) (by decide)⟩

/-! ### Claim C9 — `calcular_inversa` on a zero-row matrix -/

/-- C9: on the empty matrix (zero rows) `calcular_inversa` raises an uncaught
`IndexError` when it reads `self.matriz[0]` to compute the column count —
it neither succeeds nor raises `NotSquare`/`NotInvertible` — and at that point
the history has already been cleared while the stored matrix is untouched. -/
theorem C9_empty_indexError (e : Engine) (h : e.matriz = []) :
    calcular_inversa e =
      (Except.error PyErr.indexError,
       { matriz := [], historico := [], pivos := e.pivos }) := by
  obtain ⟨m, hist, pv⟩ := e
  cases h
  rfl

/-- C9 witness at the engine constructed from the empty input. -/
theorem C9_witness :
    (init []).matriz = [] ∧
    calcular_inversa (init []) =
      (Except.error PyErr.indexError, { matriz := [], historico := [], pivos := [] }) :=
  ⟨rfl, C9_empty_indexError (init []) rfl⟩

/-! ### Claim C4 — pivot selection in the forward phase of `escalonar` -/

/-- Invariant of the linear scan in `encontrar_pivo`: starting from the best
row `r0` (with cached value `v0`) among rows `li .. s-1`, scanning rows
`s .. s+k-1` returns the first row attaining the maximal absolute value among
rows `li .. s+k-1`. -/
theorem pivoScan_invariant (m : Mat) (c li : ℕ) :
    ∀ (k s r0 : ℕ) (v0 : ℚ), li ≤ r0 → r0 < s → v0 = |mget m r0 c| →
      (∀ x, li ≤ x → x < s → |mget m x c| ≤ v0) →
      (∀ x, li ≤ x → x < r0 → |mget m x c| < v0) →
      li ≤ pivoScan m c (List.range' s k) r0 v0 ∧
      pivoScan m c (List.range' s k) r0 v0 < s + k ∧
      (∀ x, li ≤ x → x < s + k →
        |mget m x c| ≤ |mget m (pivoScan m c (List.range' s k) r0 v0) c|) ∧
      (∀ x, li ≤ x → x < pivoScan m c (List.range' s k) r0 v0 →
        |mget m x c| < |mget m (pivoScan m c (List.range' s k) r0 v0) c|) := by
  intro k
  induction k with
  | zero =>
    intro s r0 v0 h1 h2 h3 h4 h5
    subst h3
    refine ⟨h1, by simpa [pivoScan] using h2, ?_, ?_⟩
    · intro x hx1 hx2
      simp only [List.range', pivoScan]
      exact h4 x hx1 (by omega)
    · intro x hx1 hx2
      simp only [List.range', pivoScan] at hx2 ⊢
      exact h5 x hx1 hx2
  | succ k ih =>
    intro s r0 v0 h1 h2 h3 h4 h5
    rw [List.range'_succ]
    simp only [pivoScan]
    split
    next hlt =>
      obtain ⟨a, b, d, e⟩ := ih (s + 1) s |mget m s c| (h1.trans h2.le) (by omega) rfl
        (fun x hx1 hx2 => by
          rcases lt_or_le x s with hx | hx
          · exact ((h4 x hx1 hx).trans_lt (h3 ▸ hlt)).le
          · have : x = s := by omega
            exact this ▸ le_refl _)
        (fun x hx1 hx2 => (h4 x hx1 hx2).trans_lt (h3 ▸ hlt))
      exact ⟨a, by omega, fun x hx1 hx2 => d x hx1 (by omega), e⟩
    next hge =>
      obtain ⟨a, b, d, e⟩ := ih (s + 1) r0 v0 h1 (by omega) h3
        (fun x hx1 hx2 => by
          rcases lt_or_le x s with hx | hx
          · exact h4 x hx1 hx
          · have : x = s := by omega
            exact this ▸ (not_lt.1 hge))
        h5
      exact ⟨a, by omega, fun x hx1 hx2 => d x hx1 (by omega), e⟩

/-- Specification of `encontrar_pivo` on in-range arguments: it returns the
row of largest absolute value in the column among rows
`linha_inicio .. rowCount-1`, ties broken by the lowest row index. -/
theorem encontrar_pivo_spec (m : Mat) (coluna linha_inicio : ℕ)
    (hc : coluna < (m.getD 0 []).length) (hl : linha_inicio < m.length) :
    ∃ r, encontrar_pivo m coluna linha_inicio = some r ∧
      linha_inicio ≤ r ∧ r < m.length ∧
      (∀ x, linha_inicio ≤ x → x < m.length → |mget m x coluna| ≤ |mget m r coluna|) ∧
      (∀ x, linha_inicio ≤ x → x < r → |mget m x coluna| < |mget m r coluna|) := by
  have hcond : ¬(coluna ≥ (m.getD 0 []).length ∨ linha_inicio ≥ m.length) := by
    push_neg
    exact ⟨hc, hl⟩
  obtain ⟨a, b, d, e⟩ := pivoScan_invariant m coluna linha_inicio
    (m.length - (linha_inicio + 1)) (linha_inicio + 1) linha_inicio
    |mget m linha_inicio coluna| (le_refl _) (by omega) rfl
    (fun x hx1 hx2 => by
      have : x = linha_inicio := by omega
      exact this ▸ le_refl _)
    (fun x hx1 hx2 => absurd hx2 (not_lt.2 hx1))
  refine ⟨_, ?_, a, by omega, fun x hx1 hx2 => d x hx1 (by omega), e⟩
  unfold encontrar_pivo
  rw [if_neg hcond]

/-- If `encontrar_pivo` returns a row, that row is within
`linha_inicio .. rowCount-1` and attains the maximal absolute value there. -/
theorem encontrar_pivo_some {m : Mat} {coluna linha_inicio r : ℕ}
    (h : encontrar_pivo m coluna linha_inicio = some r) :
    linha_inicio ≤ r ∧ r < m.length ∧
    (∀ x, linha_inicio ≤ x → x < m.length → |mget m x coluna| ≤ |mget m r coluna|) := by
  have hcond : ¬(coluna ≥ (m.getD 0 []).length ∨ linha_inicio ≥ m.length) := by
    intro hor
    rw [encontrar_pivo, if_pos hor] at h
    exact Option.noConfusion h
  push_neg at hcond
  obtain ⟨r', hr', a, b, d, e⟩ := encontrar_pivo_spec m coluna linha_inicio hcond.1 hcond.2
  rw [h] at hr'
  cases hr'
  exact ⟨a, b, d⟩

/-- One skip step of the forward loop: when every candidate entry of the
pivot column is zero, the loop advances `pivot_col` only, records no pivot,
and logs only the step marker. -/
theorem forwardLoop_skip (fuel linhas colunas : ℕ) (m : Mat) (hist : List LogEntry)
    (pivos : List (ℕ × ℕ)) (pr pc passo : ℕ) (hlin : linhas = m.length)
    (hpr : pr < linhas) (hpc : pc < colunas)
    (hz : ∀ x, pr ≤ x → x < m.length → mget m x pc = 0) :
    forwardLoop (fuel + 1) linhas colunas m hist pivos pr pc passo =
      forwardLoop fuel linhas colunas m
        (hist ++ [LogEntry.passo ("--- PASSO " ++ toString passo ++ " (Fase descendente) ---")])
        pivos pr (pc + 1) (passo + 1) := by
  rw [forwardLoop]
  rw [if_pos ⟨hpr, hpc⟩]
  cases hfind : encontrar_pivo m pc pr with
  | none => rfl
  | some r =>
    obtain ⟨hr1, hr2, _⟩ := encontrar_pivo_some hfind
    have hzero : mget m r pc = 0 := hz r hr1 hr2
    dsimp only
    rw [if_pos hzero]

/-- C4: in each forward-phase step of `escalonar`, (a) the pivot row selected
by `encontrar_pivo` among rows `pivotRow .. rowCount-1` in the pivot column is
the one with the largest absolute value, ties broken by the lowest row index
(every earlier candidate is strictly smaller in absolute value); and (b) when
every candidate entry in that column is zero, the loop advances `pivotCol` by
one while leaving `pivotRow` and the recorded pivot list unchanged. -/
theorem C4_pivot_selection :
    (∀ (m : Mat) (coluna linha_inicio : ℕ),
      coluna < (m.getD 0 []).length → linha_inicio < m.length →
      ∃ r, encontrar_pivo m coluna linha_inicio = some r ∧
        linha_inicio ≤ r ∧ r < m.length ∧
        (∀ x, linha_inicio ≤ x → x < m.length → |mget m x coluna| ≤ |mget m r coluna|) ∧
        (∀ x, linha_inicio ≤ x → x < r → |mget m x coluna| < |mget m r coluna|)) ∧
    (∀ (fuel linhas colunas : ℕ) (m : Mat) (hist : List LogEntry)
      (pivos : List (ℕ × ℕ)) (pr pc passo : ℕ),
      linhas = m.length → pr < linhas → pc < colunas →
      (∀ x, pr ≤ x → x < m.length → mget m x pc = 0) →
      forwardLoop (fuel + 1) linhas colunas m hist pivos pr pc passo =
        forwardLoop fuel linhas colunas m
          (hist ++
            [LogEntry.passo ("--- PASSO " ++ toString passo ++ " (Fase descendente) ---")])
          pivos pr (pc + 1) (passo + 1)) :=
  ⟨encontrar_pivo_spec, forwardLoop_skip⟩

/-- Full specification of one run of the elimination inner loop
(`elimBelow`): length and rectangularity are preserved, rows not in the
target list are untouched, every target row ends with a zero entry in the
pivot column, and any change to any row is the addition of a multiple of the
(unchanged) source row. -/
theorem elimBelow_spec (pr pc ccols : ℕ) :
    ∀ (l : List ℕ) (m : Mat) (hist : List LogEntry),
      Rect m ccols → pc < ccols →
      (∀ x ∈ l, x ≠ pr ∧ x < m.length) →
      mget m pr pc = 1 →
      (elimBelow pr pc l m hist).1.length = m.length ∧
      Rect (elimBelow pr pc l m hist).1 ccols ∧
      (∀ i j, (∀ x ∈ l, x ≠ i) → mget (elimBelow pr pc l m hist).1 i j = mget m i j) ∧
      (∀ x ∈ l, mget (elimBelow pr pc l m hist).1 x pc = 0) ∧
      (∀ i j, mget (elimBelow pr pc l m hist).1 i j = mget m i j ∨
        ∃ esc : ℚ, mget (elimBelow pr pc l m hist).1 i j = mget m i j + esc * mget m pr j) := by
  intro l
  induction l with
  | nil =>
    intro m hist hrect hpc hl hone
    refine ⟨rfl, hrect, fun i j _ => rfl, fun x hx => absurd hx (List.not_mem_nil x), ?_⟩
    intro i j
    exact Or.inl rfl
  | cons x rest ih =>
    intro m hist hrect hpc hl hone
    obtain ⟨hxpr, hxlen⟩ := hl x (List.mem_cons_self _ _)
    by_cases hxz : mget m x pc ≠ 0
    · simp only [elimBelow, if_pos hxz]
      set esc : ℚ := -(mget m x pc) with hesc
      have hescne : esc ≠ 0 := by
        rw [hesc]
        exact neg_ne_zero.2 hxz
      set m' : Mat := combinar_linha m x pr esc with hm'
      have hchar : ∀ i j, mget m' i j =
          if i = x ∧ esc ≠ 0 ∧ j < ccols then mget m x j + esc * mget m pr j
          else mget m i j := fun i j => mget_combinar hrect pr esc hxlen i j
      have hlen' : m'.length = m.length := length_combinar m x pr esc
      have hrect' : Rect m' ccols := rect_combinar hrect pr esc hxlen
      have hprrow : ∀ j, mget m' pr j = mget m pr j := by
        intro j
        rw [hchar]
        exact if_neg (fun hc => hxpr hc.1.symm)
      have hone' : mget m' pr pc = 1 := by
        rw [hprrow]
        exact hone
      have hl' : ∀ y ∈ rest, y ≠ pr ∧ y < m'.length := by
        intro y hy
        rw [hlen']
        exact hl y (List.mem_cons_of_mem _ hy)
      obtain ⟨ihL, ihR, ihNT, ihZ, ihCH⟩ := ih m' _ hrect' hpc hl' hone'
      have hxzero : mget m' x pc = 0 := by
        rw [hchar, if_pos ⟨rfl, hescne, hpc⟩, hesc]
        rw [hone]
        ring
      refine ⟨ihL.trans hlen', ihR, ?_, ?_, ?_⟩
      · intro i j hni
        rw [ihNT i j (fun y hy => hni y (List.mem_cons_of_mem _ hy)), hchar]
        exact if_neg (fun hc => hni x (List.mem_cons_self _ _) hc.1.symm)
      · intro y hy
        rcases List.mem_cons.1 hy with hy' | hy'
        · subst hy'
          by_cases hmem : y ∈ rest
          · exact ihZ y hmem
          · rw [ihNT y pc (fun z hz => fun hzy => hmem (hzy ▸ hz))]
            exact hxzero
        · exact ihZ y hy'
      · intro i j
        have h1 : mget m' i j = mget m i j ∨
            ∃ e : ℚ, mget m' i j = mget m i j + e * mget m pr j := by
          rw [hchar]
          split
          next hc =>
            rcases hc with ⟨hix, _, _⟩
            subst hix
            exact Or.inr ⟨esc, rfl⟩
          next => exact Or.inl rfl
        rcases ihCH i j with h2 | ⟨e2, h2⟩
        · rw [h2]
          exact h1
        · rcases h1 with h1 | ⟨e1, h1⟩
          · rw [h2, hprrow, h1]
            exact Or.inr ⟨e2, rfl⟩
          · rw [h2, hprrow, h1]
            exact Or.inr ⟨e1 + e2, by ring⟩
    · simp only [elimBelow, if_neg hxz]
      push_neg at hxz
      have hl' : ∀ y ∈ rest, y ≠ pr ∧ y < m.length :=
        fun y hy => hl y (List.mem_cons_of_mem _ hy)
      obtain ⟨ihL, ihR, ihNT, ihZ, ihCH⟩ := ih m hist hrect hpc hl' hone
      refine ⟨ihL, ihR, ?_, ?_, ihCH⟩
      · intro i j hni
        exact ihNT i j (fun y hy => hni y (List.mem_cons_of_mem _ hy))
      · intro y hy
        rcases List.mem_cons.1 hy with hy' | hy'
        · subst hy'
          by_cases hmem : y ∈ rest
          · exact ihZ y hmem
          · rw [ihNT y pc (fun z hz => fun hzy => hmem (hzy ▸ hz))]
            exact hxz
        · exact ihZ y hy'

/-- `backElim` performs exactly the same computation as `elimBelow` (the two
inner loops of `escalonar` are syntactically identical, only the surrounding
phase differs). -/
theorem backElim_eq_elimBelow (linha col : ℕ) :
    ∀ (l : List ℕ) (m : Mat) (hist : List LogEntry),
      backElim linha col l m hist = elimBelow linha col l m hist := by
  intro l
  induction l with
  | nil => intro m hist; rfl
  | cons x rest ih =>
    intro m hist
    simp only [backElim, elimBelow]
    split
    · exact ih _ _
    · exact ih _ _

/-- Every recorded pivot's row index is below the cursor row. -/
theorem FwdInv.piv_row_lt {linhas colunas : ℕ} {m : Mat} {pivos : List (ℕ × ℕ)} {pr pc : ℕ}
    (h : FwdInv linhas colunas m pivos pr pc) {p : ℕ × ℕ} (hp : p ∈ pivos) : p.1 < pr := by
  obtain ⟨⟨t, ht⟩, hget⟩ := List.mem_iff_get.1 hp
  have h1 : p.1 = t := by
    rw [← hget]
    exact h.piv_row t ht
  have h2 := h.piv_len
  omega

/-- Swapping the cursor row with a candidate row at or below it preserves the
forward invariant. -/
theorem FwdInv.swap {linhas colunas : ℕ} {m : Mat} {pivos : List (ℕ × ℕ)} {pr pc : ℕ}
    (h : FwdInv linhas colunas m pivos pr pc) {max_row : ℕ}
    (hmr1 : pr ≤ max_row) (hmr2 : max_row < m.length) (hpr : pr < linhas) :
    FwdInv linhas colunas (trocar_linhas m pr max_row) pivos pr pc := by
  have hprm : pr < m.length := h.len ▸ hpr
  have hchar := mget_trocar hprm hmr2
  refine ⟨by rw [length_trocar, h.len], rect_trocar h.rect hprm hmr2, h.prle, h.pcle,
    h.piv_len, h.piv_row, h.piv_col_lt, h.piv_col_mono, ?_, ?_, ?_, ?_⟩
  · intro p hp
    have hlt := h.piv_row_lt hp
    rw [hchar, if_neg (by omega : ¬ p.1 = pr), if_neg (by omega : ¬ p.1 = max_row)]
    exact h.piv_one p hp
  · intro p hp i hi1 hi2
    rw [length_trocar] at hi2
    rw [hchar]
    have hplt := h.piv_row_lt hp
    split
    · exact h.piv_below p hp max_row (by omega) hmr2
    · split
      · exact h.piv_below p hp pr (by omega) hprm
      · exact h.piv_below p hp i hi1 hi2
  · intro p hp c' hc'
    have hplt := h.piv_row_lt hp
    rw [hchar, if_neg (by omega : ¬ p.1 = pr), if_neg (by omega : ¬ p.1 = max_row)]
    exact h.piv_left p hp c' hc'
  · intro i hi1 hi2 c' hc'
    rw [length_trocar] at hi2
    rw [hchar]
    split
    · exact h.block max_row hmr1 hmr2 c' hc'
    · split
      · exact h.block pr (le_refl pr) hprm c' hc'
      · exact h.block i hi1 hi2 c' hc'

/-- Scaling the cursor row preserves the forward invariant. -/
theorem FwdInv.scale {linhas colunas : ℕ} {m : Mat} {pivos : List (ℕ × ℕ)} {pr pc : ℕ}
    (h : FwdInv linhas colunas m pivos pr pc) (esc : ℚ) :
    FwdInv linhas colunas (multiplicar_linha m pr esc) pivos pr pc := by
  have hchar := mget_multiplicar m pr esc
  refine ⟨by rw [length_multiplicar, h.len], rect_multiplicar h.rect pr esc, h.prle, h.pcle,
    h.piv_len, h.piv_row, h.piv_col_lt, h.piv_col_mono, ?_, ?_, ?_, ?_⟩
  · intro p hp
    have hlt := h.piv_row_lt hp
    rw [hchar]
    split
    next hc => exact absurd hc.1 (by omega)
    next => exact h.piv_one p hp
  · intro p hp i hi1 hi2
    rw [length_multiplicar] at hi2
    rw [hchar]
    split
    · rw [h.piv_below p hp pr (h.piv_row_lt hp) (by omega), zero_mul]
    · exact h.piv_below p hp i hi1 hi2
  · intro p hp c' hc'
    have hlt := h.piv_row_lt hp
    rw [hchar]
    split
    next hc => exact absurd hc.1 (by omega)
    next => exact h.piv_left p hp c' hc'
  · intro i hi1 hi2 c' hc'
    rw [length_multiplicar] at hi2
    rw [hchar]
    split
    next hc => rw [h.block pr (le_refl pr) (by omega) c' hc', zero_mul]
    next => exact h.block i hi1 hi2 c' hc'

/-- Extending the block of zeros by one all-zero column (the skip step). -/
theorem FwdInv.skip_ext {linhas colunas : ℕ} {m : Mat} {pivos : List (ℕ × ℕ)} {pr pc : ℕ}
    (h : FwdInv linhas colunas m pivos pr pc) (hpc : pc < colunas)
    (hall : ∀ i, pr ≤ i → i < m.length → mget m i pc = 0) :
    FwdInv linhas colunas m pivos pr (pc + 1) := by
  refine ⟨h.len, h.rect, h.prle, by omega, h.piv_len, h.piv_row, ?_, h.piv_col_mono,
    h.piv_one, h.piv_below, h.piv_left, ?_⟩
  · intro p hp
    exact (h.piv_col_lt p hp).trans (by omega)
  · intro i hi1 hi2 c' hc'
    rcases lt_or_le c' pc with hc | hc
    · exact h.block i hi1 hi2 c' hc
    · have : c' = pc := by omega
      subst this
      exact hall i hi1 hi2

/-- After the cursor row has been made a unit pivot, running the downward
elimination loop yields the forward invariant at the next cursor position
with the new pivot recorded. -/
theorem FwdInv.elim_step {linhas colunas : ℕ} {m : Mat} {pivos : List (ℕ × ℕ)} {pr pc : ℕ}
    (h : FwdInv linhas colunas m pivos pr pc) (hpr : pr < linhas) (hpc : pc < colunas)
    (hone : mget m pr pc = 1) (hist : List LogEntry) :
    FwdInv linhas colunas
      (elimBelow pr pc (List.range' (pr + 1) (linhas - (pr + 1))) m hist).1
      (pivos ++ [(pr, pc)]) (pr + 1) (pc + 1) := by
  have hmem : ∀ x ∈ List.range' (pr + 1) (linhas - (pr + 1)), pr + 1 ≤ x ∧ x < linhas := by
    intro x hx
    rw [List.mem_range'_1] at hx
    omega
  obtain ⟨hL, hR, hNT, hZ, hCH⟩ := elimBelow_spec pr pc colunas
    (List.range' (pr + 1) (linhas - (pr + 1))) m hist h.rect hpc
    (fun x hx => ⟨by have := hmem x hx; omega, by rw [h.len]; exact (hmem x hx).2⟩) hone
  have hprnot : ∀ x ∈ List.range' (pr + 1) (linhas - (pr + 1)), x ≠ pr := by
    intro x hx
    have := hmem x hx
    omega
  have hrowpr : ∀ j, mget (elimBelow pr pc (List.range' (pr + 1) (linhas - (pr + 1))) m hist).1
      pr j = mget m pr j := fun j => hNT pr j hprnot
  have hprowzero : ∀ c', c' < pc → mget m pr c' = 0 :=
    fun c' hc' => h.block pr (le_refl pr) (h.len ▸ hpr) c' hc'
  refine ⟨hL.trans h.len, hR, by omega, by omega, ?_, ?_, ?_, ?_, ?_, ?_, ?_, ?_⟩
  · rw [List.length_append, h.piv_len]
    rfl
  · intro t ht
    rw [List.length_append, h.piv_len, List.length_singleton] at ht
    simp only [List.get_eq_getElem, Fin.val_mk]
    rcases lt_or_le t pr with htpr | htpr
    · rw [List.getElem_append_left (by rw [h.piv_len]; exact htpr)]
      have h1 := h.piv_row t (by rw [h.piv_len]; exact htpr)
      simpa [List.get_eq_getElem] using h1
    · have hteq : t = pr := by omega
      subst hteq
      rw [List.getElem_append_right (le_of_eq h.piv_len)]
      simp [h.piv_len]
  · intro p hp
    rcases List.mem_append.1 hp with hp' | hp'
    · exact (h.piv_col_lt p hp').trans (by omega)
    · rw [List.mem_singleton.1 hp']
      omega
  · intro t t' ht ht' htt
    rw [List.length_append, h.piv_len, List.length_singleton] at ht ht'
    simp only [List.get_eq_getElem, Fin.val_mk]
    rcases lt_or_le t' pr with ht'pr | ht'pr
    · rw [List.getElem_append_left (by rw [h.piv_len]; omega),
        List.getElem_append_left (by rw [h.piv_len]; exact ht'pr)]
      have h1 := h.piv_col_mono t t' (by rw [h.piv_len]; omega)
        (by rw [h.piv_len]; exact ht'pr) htt
      simpa [List.get_eq_getElem] using h1
    · have hteq : t' = pr := by omega
      have htlt : t < pr := by omega
      subst hteq
      rw [List.getElem_append_left (by rw [h.piv_len]; exact htlt),
        List.getElem_append_right (le_of_eq h.piv_len)]
      have hmem' : pivos.get ⟨t, by rw [h.piv_len]; exact htlt⟩ ∈ pivos :=
        List.get_mem _ _ _
      have hcl := h.piv_col_lt _ hmem'
      simp only [List.get_eq_getElem, Fin.val_mk] at hcl
      simpa [h.piv_len] using hcl
  · intro p hp
    rcases List.mem_append.1 hp with hp' | hp'
    · rcases hCH p.1 p.2 with hc | ⟨e, hc⟩
      · rw [hc]
        exact h.piv_one p hp'
      · rw [hc, h.piv_below p hp' pr (h.piv_row_lt hp') (h.len ▸ hpr), mul_zero, add_zero]
        exact h.piv_one p hp'
    · rw [List.mem_singleton.1 hp']
      rw [hrowpr]
      exact hone
  · intro p hp i hi1 hi2
    rw [hL] at hi2
    rcases List.mem_append.1 hp with hp' | hp'
    · rcases hCH i p.2 with hc | ⟨e, hc⟩
      · rw [hc]
        exact h.piv_below p hp' i hi1 hi2
      · rw [hc, h.piv_below p hp' pr (h.piv_row_lt hp') (h.len ▸ hpr), mul_zero, add_zero]
        exact h.piv_below p hp' i hi1 hi2
    · rw [List.mem_singleton.1 hp'] at hi1 ⊢
      exact hZ i (by rw [List.mem_range'_1]; have h9 := h.len; omega)
  · intro p hp c' hc'
    rcases List.mem_append.1 hp with hp' | hp'
    · rw [hNT p.1 c' (fun x hx hxe => absurd (hxe ▸ (hmem x hx).1)
        (by have := h.piv_row_lt hp'; omega))]
      exact h.piv_left p hp' c' hc'
    · rw [List.mem_singleton.1 hp'] at hc' ⊢
      rw [hrowpr]
      exact hprowzero c' hc'
  · intro i hi1 hi2 c' hc'
    rw [hL] at hi2
    rcases lt_or_le c' pc with hcpc | hcpc
    · rcases hCH i c' with hc | ⟨e, hc⟩
      · rw [hc]
        exact h.block i (by omega) hi2 c' hcpc
      · rw [hc, hprowzero c' hcpc, mul_zero, add_zero]
        exact h.block i (by omega) hi2 c' hcpc
    · have : c' = pc := by omega
      subst this
      exact hZ i (by rw [List.mem_range'_1]; rw [h.len] at hi2; omega)

/-- The forward loop of `escalonar` preserves its invariant; with enough fuel
it exits with the cursor at an edge of the matrix. -/
theorem forwardLoop_inv (fuel : ℕ) :
    ∀ (linhas colunas : ℕ) (m : Mat) (hist : List LogEntry) (pivos : List (ℕ × ℕ))
      (pr pc passo : ℕ),
      colunas ≤ fuel + pc →
      FwdInv linhas colunas m pivos pr pc →
      ∃ pr' pc',
        FwdInv linhas colunas (forwardLoop fuel linhas colunas m hist pivos pr pc passo).1
          (forwardLoop fuel linhas colunas m hist pivos pr pc passo).2.2 pr' pc' ∧
        (linhas ≤ pr' ∨ colunas ≤ pc') := by
  induction fuel with
  | zero =>
    intro linhas colunas m hist pivos pr pc passo hfuel hinv
    exact ⟨pr, pc, hinv, Or.inr (by omega)⟩
  | succ fuel ih =>
    intro linhas colunas m hist pivos pr pc passo hfuel hinv
    by_cases hguard : pr < linhas ∧ pc < colunas
    case neg =>
      rw [forwardLoop, if_neg hguard]
      rcases not_and_or.1 hguard with hg | hg
      · exact ⟨pr, pc, hinv, Or.inl (by omega)⟩
      · exact ⟨pr, pc, hinv, Or.inr (by omega)⟩
    case pos =>
      obtain ⟨hpr, hpc⟩ := hguard
      have hprm : pr < m.length := hinv.len ▸ hpr
      have h0m : 0 < m.length := by omega
      have hcol0 : (m.getD 0 []).length = colunas := getD_row_length hinv.rect h0m
      obtain ⟨r, hfind, hr1, hr2, hmax, _⟩ :=
        encontrar_pivo_spec m pc pr (by rw [hcol0]; exact hpc) hprm
      rw [forwardLoop, if_pos ⟨hpr, hpc⟩]
      dsimp only
      rw [hfind]
      dsimp only
      by_cases hz : mget m r pc = 0
      · rw [if_pos hz]
        refine ih linhas colunas m _ pivos pr (pc + 1) (passo + 1) (by omega) ?_
        refine hinv.skip_ext hpc ?_
        intro i hi1 hi2
        have h1 := hmax i hi1 hi2
        rw [hz, abs_zero] at h1
        exact abs_nonpos_iff.1 h1
      · rw [if_neg hz]
        by_cases hswap : r ≠ pr
        · rw [if_pos hswap]
          dsimp only
          have hinv1 : FwdInv linhas colunas (trocar_linhas m pr r) pivos pr pc :=
            hinv.swap hr1 hr2 hpr
          have hv1 : mget (trocar_linhas m pr r) pr pc = mget m r pc := by
            rw [mget_trocar hprm hr2, if_pos rfl]
          by_cases hone : mget (trocar_linhas m pr r) pr pc ≠ 1
          · rw [if_pos hone, if_pos (by rw [hv1]; exact hz)]
            dsimp only
            refine ih linhas colunas _ _ _ (pr + 1) (pc + 1) (passo + 1) (by omega) ?_
            refine (hinv1.scale _).elim_step hpr hpc ?_ _
            rw [mget_multiplicar, if_pos ⟨rfl, one_div_ne_zero (by rw [hv1]; exact hz)⟩]
            rw [hv1]
            exact mul_one_div_cancel hz
          · rw [if_neg hone]
            push_neg at hone
            refine ih linhas colunas _ _ _ (pr + 1) (pc + 1) (passo + 1) (by omega) ?_
            exact hinv1.elim_step hpr hpc hone _
        · rw [if_neg hswap]
          dsimp only
          push_neg at hswap
          have hzpr : mget m pr pc ≠ 0 := by
            rw [← hswap]
            exact hz
          by_cases hone : mget m pr pc ≠ 1
          · rw [if_pos hone, if_pos hzpr]
            dsimp only
            refine ih linhas colunas _ _ _ (pr + 1) (pc + 1) (passo + 1) (by omega) ?_
            refine (hinv.scale _).elim_step hpr hpc ?_ _
            rw [mget_multiplicar, if_pos ⟨rfl, one_div_ne_zero hzpr⟩]
            exact mul_one_div_cancel hzpr
          · rw [if_neg hone]
            push_neg at hone
            refine ih linhas colunas _ _ _ (pr + 1) (pc + 1) (passo + 1) (by omega) ?_
            exact hinv.elim_step hpr hpc hone _

/-- A pivot list member is determined by its row index. -/
theorem BwdInv.mem_get {linhas colunas : ℕ} {m : Mat} {pivos : List (ℕ × ℕ)} {s : ℕ}
    (h : BwdInv linhas colunas m pivos s) {p : ℕ × ℕ} (hp : p ∈ pivos) :
    ∃ hlt : p.1 < pivos.length, pivos.get ⟨p.1, hlt⟩ = p := by
  obtain ⟨⟨u, hu⟩, hget⟩ := List.mem_iff_get.1 hp
  have h1 : p.1 = u := by
    rw [← hget]
    exact h.piv_row u hu
  subst h1
  exact ⟨hu, hget⟩

/-- One step of the ascending phase: clearing the column above pivot `s`
moves the backward invariant from `s + 1` to `s`. -/
theorem BwdInv.step {linhas colunas : ℕ} {m : Mat} {pivos : List (ℕ × ℕ)} {s : ℕ}
    (h : BwdInv linhas colunas m pivos (s + 1)) (hs : s < pivos.length)
    (hist : List LogEntry) :
    BwdInv linhas colunas
      (backElim (pivos.get ⟨s, hs⟩).1 (pivos.get ⟨s, hs⟩).2
        ((List.range (pivos.get ⟨s, hs⟩).1).reverse) m hist).1 pivos s := by
  have hrow : (pivos.get ⟨s, hs⟩).1 = s := h.piv_row s hs
  have hmemS : pivos.get ⟨s, hs⟩ ∈ pivos := List.get_mem _ _ _
  have hone : mget m (pivos.get ⟨s, hs⟩).1 (pivos.get ⟨s, hs⟩).2 = 1 := h.piv_one _ hmemS
  have hcolc : (pivos.get ⟨s, hs⟩).2 < colunas := h.piv_col_lt _ hmemS
  have hlinhalen : (pivos.get ⟨s, hs⟩).1 < m.length := by
    rw [h.len, hrow]
    have := h.piv_len_le
    omega
  have hmemtargets : ∀ x ∈ (List.range (pivos.get ⟨s, hs⟩).1).reverse,
      x ≠ (pivos.get ⟨s, hs⟩).1 ∧ x < m.length := by
    intro x hx
    rw [List.mem_reverse, List.mem_range] at hx
    exact ⟨by omega, by omega⟩
  rw [backElim_eq_elimBelow]
  obtain ⟨hL, hR, hNT, hZ, hCH⟩ := elimBelow_spec (pivos.get ⟨s, hs⟩).1
    (pivos.get ⟨s, hs⟩).2 colunas ((List.range (pivos.get ⟨s, hs⟩).1).reverse) m hist
    h.rect hcolc hmemtargets hone
  have hNTrow : ∀ i j, (pivos.get ⟨s, hs⟩).1 ≤ i →
      mget (elimBelow (pivos.get ⟨s, hs⟩).1 (pivos.get ⟨s, hs⟩).2
        ((List.range (pivos.get ⟨s, hs⟩).1).reverse) m hist).1 i j = mget m i j := by
    intro i j hi
    refine hNT i j ?_
    intro x hx
    rw [List.mem_reverse, List.mem_range] at hx
    omega
  have hsrc_zero : ∀ (t : ℕ) (ht : t < pivos.length), t ≠ s →
      mget m (pivos.get ⟨s, hs⟩).1 (pivos.get ⟨t, ht⟩).2 = 0 := by
    intro t ht htne
    rcases lt_or_gt_of_ne htne with hlt | hgt
    · have hmono := h.piv_col_mono t s ht hs hlt
      exact h.piv_left _ hmemS _ hmono
    · have := h.above t ht (by omega) (pivos.get ⟨s, hs⟩).1 (by omega)
      exact this
  refine ⟨hL.trans h.len, hR, h.piv_len_le, h.piv_row, h.piv_col_lt, h.piv_col_mono,
    ?_, ?_, ?_, ?_, ?_⟩
  · intro p hp
    obtain ⟨hplt, hpget⟩ := h.mem_get hp
    have hprow : p.1 = (pivos.get ⟨p.1, hplt⟩).1 := (congrArg Prod.fst hpget).symm
    rcases eq_or_ne p.1 s with hps | hps
    · rw [hNTrow p.1 p.2 (by omega)]
      exact h.piv_one p hp
    · rcases hCH p.1 p.2 with hc | ⟨e, hc⟩
      · rw [hc]
        exact h.piv_one p hp
      · rw [hc]
        have hz2 : mget m (pivos.get ⟨s, hs⟩).1 p.2 = 0 := by
          have := hsrc_zero p.1 hplt hps
          rw [hpget] at this
          exact this
        rw [hz2, mul_zero, add_zero]
        exact h.piv_one p hp
  · intro p hp i hi1 hi2
    rw [hL] at hi2
    obtain ⟨hplt, hpget⟩ := h.mem_get hp
    rcases eq_or_ne p.1 s with hps | hps
    · rw [hNTrow i p.2 (by omega)]
      exact h.piv_below p hp i hi1 hi2
    · rcases hCH i p.2 with hc | ⟨e, hc⟩
      · rw [hc]
        exact h.piv_below p hp i hi1 hi2
      · rw [hc]
        have hz2 : mget m (pivos.get ⟨s, hs⟩).1 p.2 = 0 := by
          have := hsrc_zero p.1 hplt hps
          rw [hpget] at this
          exact this
        rw [hz2, mul_zero, add_zero]
        exact h.piv_below p hp i hi1 hi2
  · intro p hp c' hc'
    obtain ⟨hplt, hpget⟩ := h.mem_get hp
    rcases lt_or_le p.1 s with hps | hps
    · rcases hCH p.1 c' with hc | ⟨e, hc⟩
      · rw [hc]
        exact h.piv_left p hp c' hc'
      · rw [hc]
        have hz2 : mget m (pivos.get ⟨s, hs⟩).1 c' = 0 := by
          refine h.piv_left _ hmemS c' ?_
          have hmono := h.piv_col_mono p.1 s hplt hs hps
          rw [hpget] at hmono
          omega
        rw [hz2, mul_zero, add_zero]
        exact h.piv_left p hp c' hc'
    · rw [hNTrow p.1 c' (by omega)]
      exact h.piv_left p hp c' hc'
  · intro i hki hi2 j
    rw [hL] at hi2
    rw [hNTrow i j (by omega)]
    exact h.tail_zero i hki hi2 j
  · intro t ht hts i hit
    rcases eq_or_ne t s with hteq | htne
    · subst hteq
      refine hZ i ?_
      rw [List.mem_reverse, List.mem_range]
      omega
    · have hts' : s + 1 ≤ t := by omega
      rcases hCH i (pivos.get ⟨t, ht⟩).2 with hc | ⟨e, hc⟩
      · rw [hc]
        exact h.above t ht hts' i hit
      · rw [hc, hsrc_zero t ht htne, mul_zero, add_zero]
        exact h.above t ht hts' i hit

/-- Running the ascending loop over the reversed pivot list drives the
backward invariant down to `0`. -/
theorem backLoop_inv (s : ℕ) :
    ∀ (linhas colunas : ℕ) (m : Mat) (hist : List LogEntry) (pivos : List (ℕ × ℕ)),
      s ≤ pivos.length →
      BwdInv linhas colunas m pivos s →
      BwdInv linhas colunas (backLoop (pivos.take s).reverse m hist).1 pivos 0 := by
  induction s with
  | zero =>
    intro linhas colunas m hist pivos hs hinv
    simpa [backLoop] using hinv
  | succ s ih =>
    intro linhas colunas m hist pivos hs hinv
    have hs' : s < pivos.length := by omega
    have hsplit : (pivos.take (s + 1)).reverse
        = pivos.get ⟨s, hs'⟩ :: (pivos.take s).reverse := by
      rw [List.take_succ, List.getElem?_eq_getElem hs']
      simp [List.get_eq_getElem]
    have hstep := hinv.step hs' hist
    rcases hget : pivos.get ⟨s, hs'⟩ with ⟨linha, col⟩
    rw [hget] at hsplit hstep
    rw [hsplit, backLoop]
    dsimp only at hstep ⊢
    exact ih _ _ _ _ _ (by omega) hstep

/-- A backward invariant that has reached `0` yields reduced row-echelon
form. -/
theorem BwdInv.isRREF {linhas colunas : ℕ} {m : Mat} {pivos : List (ℕ × ℕ)}
    (h : BwdInv linhas colunas m pivos 0) : IsRREF m := by
  have hlead_unique : ∀ i c, i < m.length → LeadsAt m i c →
      ∃ hi : i < pivos.length, c = (pivos.get ⟨i, hi⟩).2 := by
    intro i c him hL
    rcases lt_or_le i pivos.length with hik | hik
    · refine ⟨hik, ?_⟩
      have hmemi : pivos.get ⟨i, hik⟩ ∈ pivos := List.get_mem _ _ _
      have hrowi : (pivos.get ⟨i, hik⟩).1 = i := h.piv_row i hik
      rcases lt_trichotomy c (pivos.get ⟨i, hik⟩).2 with hlt | heq | hgt
      · have hz := h.piv_left _ hmemi c hlt
        rw [hrowi] at hz
        exact absurd hz hL.2.1
      · exact heq
      · have h1 := h.piv_one _ hmemi
        rw [hrowi] at h1
        have h0 := hL.2.2 _ hgt
        rw [h0] at h1
        exact absurd h1 zero_ne_one
    · exact absurd (h.tail_zero i hik him c) hL.2.1
  refine ⟨?_, ?_, ?_, ?_⟩
  · intro i cc hi hL
    obtain ⟨hik, hceq⟩ := hlead_unique i cc hi hL
    subst hceq
    have h1 := h.piv_one _ (List.get_mem pivos i hik)
    rw [h.piv_row i hik] at h1
    exact h1
  · intro i cc hi hL i' hi' hne
    obtain ⟨hik, hceq⟩ := hlead_unique i cc hi hL
    subst hceq
    rcases lt_or_gt_of_ne hne with hlt | hgt
    · exact h.above i hik (Nat.zero_le i) i' hlt
    · have hrowi : (pivos.get ⟨i, hik⟩).1 = i := h.piv_row i hik
      have := h.piv_below _ (List.get_mem pivos i hik) i' (by omega) hi'
      exact this
  · intro i i' cc cc' hii hi' hL hL'
    have hi : i < m.length := by omega
    obtain ⟨hik, hceq⟩ := hlead_unique i cc hi hL
    obtain ⟨hik', hceq'⟩ := hlead_unique i' cc' hi' hL'
    subst hceq hceq'
    exact h.piv_col_mono i i' hik hik' hii
  · intro i i' hii hi' hzero j
    rcases lt_or_le i pivos.length with hik | hik
    · have h1 := h.piv_one _ (List.get_mem pivos i hik)
      rw [h.piv_row i hik] at h1
      rw [hzero _] at h1
      exact absurd h1 zero_ne_one
    · exact h.tail_zero i' (by omega) hi' j

/-- C1: for every non-empty rectangular matrix, the matrix returned by
`escalonar` is in reduced row-echelon form: each non-zero row's leading
non-zero entry equals 1, every column containing such a leading 1 is zero in
all other rows, the leading-1 columns strictly increase with row index, and
all fully zero rows are trailing. -/
theorem C1_escalonar_rref (e : Engine) (c : ℕ) (hne : e.matriz ≠ [])
    (hrect : Rect e.matriz c) : IsRREF (escalonar e).1 := by
  have hlen0 : e.matriz.length ≠ 0 := fun h => hne (List.length_eq_zero.1 h)
  unfold escalonar
  dsimp only
  rw [if_neg hlen0]
  dsimp only
  set FW := forwardLoop ((e.matriz.getD 0 []).length) e.matriz.length
    ((e.matriz.getD 0 []).length) e.matriz
    [LogEntry.matriz "Matriz inicial:" (matriz_copia e.matriz)] [] 0 0 1 with hFW
  have hinv0 : FwdInv e.matriz.length ((e.matriz.getD 0 []).length) e.matriz [] 0 0 := by
    refine ⟨rfl, ?_, by omega, by omega, rfl, ?_, ?_, ?_, ?_, ?_, ?_, ?_⟩
    · intro r hr
      rw [hrect r hr]
      exact (getD_row_length hrect (by omega)).symm
    · intro t ht
      exact absurd ht (by simp)
    · intro p hp
      exact absurd hp (List.not_mem_nil p)
    · intro t t' ht
      exact absurd ht (by simp)
    · intro p hp
      exact absurd hp (List.not_mem_nil p)
    · intro p hp
      exact absurd hp (List.not_mem_nil p)
    · intro p hp
      exact absurd hp (List.not_mem_nil p)
    · intro i hi1 hi2 c' hc'
      exact absurd hc' (by omega)
  obtain ⟨pr', pc', hinvF, hedge⟩ := forwardLoop_inv ((e.matriz.getD 0 []).length)
    e.matriz.length ((e.matriz.getD 0 []).length) e.matriz
    [LogEntry.matriz "Matriz inicial:" (matriz_copia e.matriz)] [] 0 0 1 (by omega) hinv0
  rw [← hFW] at hinvF
  have hB : BwdInv e.matriz.length ((e.matriz.getD 0 []).length) FW.1 FW.2.2
      (FW.2.2.length) := by
    refine ⟨hinvF.len, hinvF.rect, by rw [hinvF.piv_len]; exact hinvF.prle, hinvF.piv_row,
      fun p hp => (hinvF.piv_col_lt p hp).trans_le hinvF.pcle, hinvF.piv_col_mono,
      hinvF.piv_one, hinvF.piv_below, hinvF.piv_left, ?_, ?_⟩
    · intro i hki hi2 j
      rcases hedge with hE | hE
      · exfalso
        rw [hinvF.piv_len] at hki
        rw [hinvF.len] at hi2
        omega
      · rcases lt_or_le j ((e.matriz.getD 0 []).length) with hj | hj
        · refine hinvF.block i ?_ hi2 j (by omega)
          rw [hinvF.piv_len] at hki
          exact hki
        · exact mget_of_col_le hinvF.rect hj i
    · intro t ht hts i hit
      omega
  have hfinal := backLoop_inv (FW.2.2.length) e.matriz.length
    ((e.matriz.getD 0 []).length) FW.1
    (FW.2.1 ++ [LogEntry.passo "--- FASE ASCENDENTE (Eliminação para trás) ---"])
    FW.2.2 (le_refl _) hB
  rw [List.take_length] at hfinal
  exact hfinal.isRREF

/-- C1 witness at the 3×4 matrix from the spec's concrete scenario. -/
theorem C1_witness :
    (init [[2, 1, -1, 8], [-3, -1, 2, -11], [-2, 1, 2, -3]]).matriz ≠ [] ∧
    Rect (init [[2, 1, -1, 8], [-3, -1, 2, -11], [-2, 1, 2, -3]]).matriz 4 ∧
    IsRREF (escalonar (init [[2, 1, -1, 8], [-3, -1, 2, -11], [-2, 1, 2, -3]])).1 :=
  ⟨by decide, by decide,
    C1_escalonar_rref (init [[2, 1, -1, 8], [-3, -1, 2, -11], [-2, 1, 2, -3]]) 4
      (by decide) (by decide)⟩

/-! ### Lemmas for the inversion engine -/

theorem dotSum_congr {n : ℕ} {f g : ℕ → ℚ} (h : ∀ k, k < n → f k = g k) :
    dotSum n f = dotSum n g := by
  unfold dotSum
  congr 1
  refine List.map_congr_left ?_
  intro k hk
  exact h k (List.mem_range.1 hk)

theorem dotSum_add (n : ℕ) (f g : ℕ → ℚ) :
    dotSum n (fun k => f k + g k) = dotSum n f + dotSum n g := by
  unfold dotSum
  exact List.sum_map_add

theorem dotSum_mul_right (n : ℕ) (f : ℕ → ℚ) (c : ℚ) :
    dotSum n (fun k => f k * c) = dotSum n f * c := by
  unfold dotSum
  rw [← List.sum_map_mul_right]

theorem dotSum_mul_left (n : ℕ) (f : ℕ → ℚ) (c : ℚ) :
    dotSum n (fun k => c * f k) = c * dotSum n f := by
  unfold dotSum
  rw [← List.sum_map_mul_left]

theorem dotSum_eq_sum (n : ℕ) (f : ℕ → ℚ) : dotSum n f = ∑ k ∈ Finset.range n, f k := by
  induction n with
  | zero => simp [dotSum]
  | succ n ih =>
    rw [Finset.sum_range_succ, ← ih]
    unfold dotSum
    rw [List.range_succ, List.map_append, List.sum_append]
    simp

/-- The inline pivot scan of `calcular_inversa` returns a candidate row whose
absolute value dominates the start row and every scanned row. -/
theorem invPivo_spec (m : Mat) (c : ℕ) :
    ∀ (l : List ℕ) (r0 : ℕ),
      (invPivo m c l r0 = r0 ∨ invPivo m c l r0 ∈ l) ∧
      |mget m r0 c| ≤ |mget m (invPivo m c l r0) c| ∧
      (∀ x ∈ l, |mget m x c| ≤ |mget m (invPivo m c l r0) c|) := by
  intro l
  induction l with
  | nil =>
    intro r0
    exact ⟨Or.inl rfl, le_refl _, fun x hx => absurd hx (List.not_mem_nil x)⟩
  | cons k ks ih =>
    intro r0
    simp only [invPivo]
    split
    next hlt =>
      obtain ⟨hmem, hle, hall⟩ := ih k
      refine ⟨?_, (le_of_lt hlt).trans hle, ?_⟩
      · rcases hmem with hm | hm
        · exact Or.inr (by rw [hm]; exact List.mem_cons_self _ _)
        · exact Or.inr (List.mem_cons_of_mem _ hm)
      · intro x hx
        rcases List.mem_cons.1 hx with hx' | hx'
        · subst hx'
          exact hle
        · exact hall x hx'
    next hge =>
      obtain ⟨hmem, hle, hall⟩ := ih r0
      push_neg at hge
      refine ⟨?_, hle, ?_⟩
      · rcases hmem with hm | hm
        · exact Or.inl hm
        · exact Or.inr (List.mem_cons_of_mem _ hm)
      · intro x hx
        rcases List.mem_cons.1 hx with hx' | hx'
        · subst hx'
          exact hge.trans hle
        · exact hall x hx'

/-- The two elimination inner loops of `calcular_inversa` are the same
computation. -/
theorem invBackElim_eq (n i : ℕ) :
    ∀ (l : List ℕ) (m : Mat) (hist : List LogEntry),
      invBackElim n i l m hist = invElimBelow n i l m hist := by
  intro l
  induction l with
  | nil =>
    intro m hist
    rfl
  | cons x rest ih =>
    intro m hist
    simp only [invBackElim, invElimBelow]
    split
    · exact ih _ _
    · exact ih _ _

/-- Specification of the augmented-matrix elimination loop, mirroring
`elimBelow_spec`: untouched rows, zeros established in column `i`, and the
generic change form. -/
theorem invElim_spec (n i : ℕ) :
    ∀ (l : List ℕ) (m : Mat) (hist : List LogEntry),
      Rect m (2 * n) →
      (∀ x ∈ l, x ≠ i ∧ x < m.length) →
      mget m i i = 1 →
      (invElimBelow n i l m hist).1.length = m.length ∧
      Rect (invElimBelow n i l m hist).1 (2 * n) ∧
      (∀ r j, (∀ x ∈ l, x ≠ r) → mget (invElimBelow n i l m hist).1 r j = mget m r j) ∧
      (∀ x ∈ l, mget (invElimBelow n i l m hist).1 x i = 0) ∧
      (∀ r, (∀ j, mget (invElimBelow n i l m hist).1 r j = mget m r j) ∨
        ∃ f : ℚ, ∀ j, mget (invElimBelow n i l m hist).1 r j = mget m r j + f * mget m i j) := by
  intro l
  induction l with
  | nil =>
    intro m hist hrect hl hone
    exact ⟨rfl, hrect, fun r j _ => rfl, fun x hx => absurd hx (List.not_mem_nil x),
      fun r => Or.inl (fun j => rfl)⟩
  | cons x rest ih =>
    intro m hist hrect hl hone
    obtain ⟨hxi, hxlen⟩ := hl x (List.mem_cons_self _ _)
    by_cases hxz : mget m x i ≠ 0
    · simp only [invElimBelow, if_pos hxz]
      set f : ℚ := -(mget m x i) with hf
      set m' : Mat := combinaLinhaAum n m x i f with hm'
      have hchar : ∀ r j, mget m' r j =
          if r = x ∧ x < m.length then mget m x j + f * mget m i j
          else mget m r j := fun r j => mget_combinaAum hrect x i f r j
      have hlen' : m'.length = m.length := length_combinaAum n m x i f
      have hrect' : Rect m' (2 * n) := rect_combinaAum hrect x i f
      have hirow : ∀ j, mget m' i j = mget m i j := by
        intro j
        rw [hchar]
        exact if_neg (fun hc => hxi hc.1.symm)
      have hone' : mget m' i i = 1 := by
        rw [hirow]
        exact hone
      have hl' : ∀ y ∈ rest, y ≠ i ∧ y < m'.length := by
        intro y hy
        rw [hlen']
        exact hl y (List.mem_cons_of_mem _ hy)
      obtain ⟨ihL, ihR, ihNT, ihZ, ihCH⟩ := ih m' _ hrect' hl' hone'
      have hxzero : mget m' x i = 0 := by
        rw [hchar, if_pos ⟨rfl, hxlen⟩, hone, hf]
        ring
      refine ⟨ihL.trans hlen', ihR, ?_, ?_, ?_⟩
      · intro r j hnr
        rw [ihNT r j (fun y hy => hnr y (List.mem_cons_of_mem _ hy)), hchar]
        exact if_neg (fun hc => hnr x (List.mem_cons_self _ _) hc.1.symm)
      · intro y hy
        rcases List.mem_cons.1 hy with hy' | hy'
        · subst hy'
          by_cases hmem : y ∈ rest
          · exact ihZ y hmem
          · rw [ihNT y i (fun z hz => fun hzy => hmem (hzy ▸ hz))]
            exact hxzero
        · exact ihZ y hy'
      · intro r
        have h1 : (∀ j, mget m' r j = mget m r j) ∨
            ∃ e : ℚ, ∀ j, mget m' r j = mget m r j + e * mget m i j := by
          by_cases hrx : r = x ∧ x < m.length
          · refine Or.inr ⟨f, fun j => ?_⟩
            rw [hchar, if_pos hrx, hrx.1]
          · exact Or.inl (fun j => by rw [hchar, if_neg hrx])
        rcases ihCH r with h2 | ⟨e2, h2⟩
        · rcases h1 with h1 | ⟨e1, h1⟩
          · exact Or.inl (fun j => by rw [h2 j, h1 j])
          · exact Or.inr ⟨e1, fun j => by rw [h2 j, h1 j]⟩
        · rcases h1 with h1 | ⟨e1, h1⟩
          · refine Or.inr ⟨e2, fun j => ?_⟩
            rw [h2 j, hirow, h1 j]
          · refine Or.inr ⟨e1 + e2, fun j => ?_⟩
            rw [h2 j, hirow, h1 j]
            ring
    · simp only [invElimBelow, if_neg hxz]
      push_neg at hxz
      have hl' : ∀ y ∈ rest, y ≠ i ∧ y < m.length :=
        fun y hy => hl y (List.mem_cons_of_mem _ hy)
      obtain ⟨ihL, ihR, ihNT, ihZ, ihCH⟩ := ih m hist hrect hl' hone
      refine ⟨ihL, ihR, ?_, ?_, ihCH⟩
      · intro r j hnr
        exact ihNT r j (fun y hy => hnr y (List.mem_cons_of_mem _ hy))
      · intro y hy
        rcases List.mem_cons.1 hy with hy' | hy'
        · subst hy'
          by_cases hmem : y ∈ rest
          · exact ihZ y hmem
          · rw [ihNT y i (fun z hz => fun hzy => hmem (hzy ▸ hz))]
            exact hxz
        · exact ihZ y hy'

theorem det_toMat_trocar {n : ℕ} {m : Mat} (hlen : m.length = n) {a b : ℕ}
    (ha : a < n) (hb : b < n) (hab : a ≠ b) :
    (toMat n (trocar_linhas m a b)).det = -(toMat n m).det := by
  have hmat : toMat n (trocar_linhas m a b)
      = (toMat n m).submatrix (Equiv.swap ⟨a, ha⟩ ⟨b, hb⟩) id := by
    ext i j
    rw [Matrix.submatrix_apply]
    show mget (trocar_linhas m a b) i.1 j.1
      = mget m (((Equiv.swap (⟨a, ha⟩ : Fin n) ⟨b, hb⟩) i)).1 (id j).1
    rw [mget_trocar (by omega : a < m.length) (by omega : b < m.length),
      Equiv.swap_apply_def]
    rcases eq_or_ne i.1 a with hia | hia
    · rw [if_pos hia, if_pos (Fin.ext hia)]
      rfl
    · rw [if_neg hia, if_neg (fun hc : i = ⟨a, ha⟩ => hia (by rw [hc]))]
      rcases eq_or_ne i.1 b with hib | hib
      · rw [if_pos hib, if_pos (Fin.ext hib)]
        rfl
      · rw [if_neg hib, if_neg (fun hc : i = ⟨b, hb⟩ => hib (by rw [hc]))]
        rfl
  rw [hmat, Matrix.det_permute, Equiv.Perm.sign_swap (Fin.ne_of_val_ne hab)]
  simp

theorem det_toMat_escala {n : ℕ} {m : Mat} (hrect : Rect m (2 * n)) (hlen : m.length = n)
    {i : ℕ} (hi : i < n) (f : ℚ) :
    (toMat n (escalaLinhaAum n m i f)).det = f * (toMat n m).det := by
  have hmat : toMat n (escalaLinhaAum n m i f)
      = (toMat n m).updateRow ⟨i, hi⟩ (f • (toMat n m ⟨i, hi⟩)) := by
    ext r j
    rw [Matrix.updateRow_apply]
    show mget (escalaLinhaAum n m i f) r.1 j.1 = _
    rw [mget_escalaAum hrect i f r.1 j.1]
    rcases eq_or_ne r.1 i with hri | hri
    · rw [if_pos ⟨hri, by omega⟩, if_pos (Fin.ext hri)]
      simp only [Pi.smul_apply, smul_eq_mul]
      exact mul_comm _ _
    · rw [if_neg (fun hc => hri hc.1), if_neg (fun hc : r = ⟨i, hi⟩ => hri (by rw [hc]))]
      rfl
  rw [hmat, Matrix.det_updateRow_smul, Matrix.updateRow_eq_self]

theorem det_toMat_combina {n : ℕ} {m : Mat} (hrect : Rect m (2 * n)) (hlen : m.length = n)
    {k i : ℕ} (hk : k < n) (hi : i < n) (hki : k ≠ i) (f : ℚ) :
    (toMat n (combinaLinhaAum n m k i f)).det = (toMat n m).det := by
  have hmat : toMat n (combinaLinhaAum n m k i f)
      = (toMat n m).updateRow ⟨k, hk⟩ (toMat n m ⟨k, hk⟩ + f • toMat n m ⟨i, hi⟩) := by
    ext r j
    rw [Matrix.updateRow_apply]
    show mget (combinaLinhaAum n m k i f) r.1 j.1 = _
    rw [mget_combinaAum hrect k i f r.1 j.1]
    rcases eq_or_ne r.1 k with hrk | hrk
    · rw [if_pos ⟨hrk, by omega⟩, if_pos (Fin.ext hrk)]
      simp only [Pi.add_apply, Pi.smul_apply, smul_eq_mul]
      rfl
    · rw [if_neg (fun hc => hrk hc.1), if_neg (fun hc : r = ⟨k, hk⟩ => hrk (by rw [hc]))]
      rfl
  rw [hmat, Matrix.det_updateRow_add_smul_self _ (Fin.ne_of_val_ne hki) f]

/-- A square matrix whose rows `≥ i` vanish on columns `≤ i` is singular. -/
theorem det_eq_zero_of_block {n : ℕ} (M : Matrix (Fin n) (Fin n) ℚ) (i : ℕ) (hi : i < n)
    (hzero : ∀ r c : Fin n, i ≤ r.1 → c.1 < i → M r c = 0)
    (hcol : ∀ r : Fin n, i ≤ r.1 → M r ⟨i, hi⟩ = 0) : M.det = 0 := by
  have hsum : i + (n - i) = n := by omega
  set g : Fin i ⊕ Fin (n - i) ≃ Fin n := finSumFinEquiv.trans (finCongr hsum) with hg
  have hval_r : ∀ r : Fin (n - i), (g (Sum.inr r)).1 = i + r.1 := by
    intro r
    simp [hg, finSumFinEquiv_apply_right]
  have hval_l : ∀ c : Fin i, (g (Sum.inl c)).1 = c.1 := by
    intro c
    simp [hg, finSumFinEquiv_apply_left]
  have hdet : (M.submatrix g g).det = M.det := Matrix.det_submatrix_equiv_self g M
  rw [← hdet, ← Matrix.fromBlocks_toBlocks (M.submatrix g g)]
  have hB21 : (M.submatrix g g).toBlocks₂₁ = 0 := by
    ext r c
    simp only [Matrix.toBlocks₂₁, Matrix.of_apply, Matrix.submatrix_apply, Matrix.zero_apply]
    exact hzero _ _ (by rw [hval_r r]; omega) (by rw [hval_l c]; omega)
  rw [hB21, Matrix.det_fromBlocks_zero₂₁]
  have h0 : 0 < n - i := by omega
  have hD : (M.submatrix g g).toBlocks₂₂.det = 0 := by
    refine Matrix.det_eq_zero_of_column_eq_zero ⟨0, h0⟩ ?_
    intro r
    simp only [Matrix.toBlocks₂₂, Matrix.of_apply, Matrix.submatrix_apply]
    have hcoleq : g (Sum.inr ⟨0, h0⟩) = (⟨i, hi⟩ : Fin n) := by
      refine Fin.ext ?_
      rw [hval_r]
      simp
    rw [hcoleq]
    exact hcol _ (by rw [hval_r r]; omega)
  rw [hD, mul_zero]

/-- A row change of the form `row r ← row r + f × row i`, applied to the full
augmented width, preserves the left-equals-right-times-A relation. -/
theorem rel_of_change {n : ℕ} {A m m' : Mat} {i : ℕ}
    (hrel : ∀ r, r < n → ∀ j, j < n →
      mget m r j = dotSum n (fun k => mget m r (n + k) * mget A k j))
    (hin : i < n)
    (hch : ∀ r, (∀ j, mget m' r j = mget m r j) ∨
      ∃ f : ℚ, ∀ j, mget m' r j = mget m r j + f * mget m i j) :
    ∀ r, r < n → ∀ j, j < n →
      mget m' r j = dotSum n (fun k => mget m' r (n + k) * mget A k j) := by
  intro r hr j hj
  rcases hch r with hc | ⟨f, hc⟩
  · rw [hc j, dotSum_congr (fun k hk => by rw [hc (n + k)])]
    exact hrel r hr j hj
  · rw [hc j, dotSum_congr (fun k hk => by rw [hc (n + k)])]
    have hsplit : dotSum n (fun k => (mget m r (n + k) + f * mget m i (n + k)) * mget A k j)
        = dotSum n (fun k => mget m r (n + k) * mget A k j)
          + f * dotSum n (fun k => mget m i (n + k) * mget A k j) := by
      rw [← dotSum_mul_left, ← dotSum_add]
      exact dotSum_congr (fun k hk => by ring)
    rw [hsplit, ← hrel r hr j hj, ← hrel i hin j hj]

/-- Swapping the cursor row with the selected pivot row preserves the
inversion forward invariant. -/
theorem InvFwdS.swapAug {n : ℕ} {A m : Mat} {i : ℕ} (h : InvFwdS n A m i)
    {pivo : ℕ} (hip : i ≤ pivo) (hpn : pivo < n) (hin : i < n) :
    InvFwdS n A (trocar_linhas m i pivo) i := by
  have him : i < m.length := by rw [h.len]; exact hin
  have hpm : pivo < m.length := by rw [h.len]; exact hpn
  have hchar := mget_trocar him hpm
  refine ⟨by rw [length_trocar, h.len], rect_trocar h.rect him hpm, h.ile, ?_, ?_, ?_⟩
  · intro t ht
    rw [hchar, if_neg (by omega : ¬ t = i), if_neg (by omega : ¬ t = pivo)]
    exact h.diag t ht
  · intro t ht k hk1 hk2
    rw [hchar]
    split
    next => exact h.below t ht pivo (by omega) hpn
    next =>
      split
      next => exact h.below t ht i (by omega) hin
      next => exact h.below t ht k hk1 hk2
  · intro r hr j hj
    rcases eq_or_ne r i with hri | hri
    · subst hri
      rw [hchar, if_pos rfl, dotSum_congr (fun k hk => by rw [hchar, if_pos rfl])]
      exact h.rel pivo hpn j hj
    · rcases eq_or_ne r pivo with hrp | hrp
      · subst hrp
        rw [hchar, if_neg hri, if_pos rfl,
          dotSum_congr (fun k hk => by rw [hchar, if_neg hri, if_pos rfl])]
        exact h.rel i hin j hj
      · rw [hchar, if_neg hri, if_neg hrp,
          dotSum_congr (fun k hk => by rw [hchar, if_neg hri, if_neg hrp])]
        exact h.rel r hr j hj

/-- Scaling the cursor row over the full augmented width preserves the
inversion forward invariant. -/
theorem InvFwdS.scaleAug {n : ℕ} {A m : Mat} {i : ℕ} (h : InvFwdS n A m i)
    (hin : i < n) (f : ℚ) :
    InvFwdS n A (escalaLinhaAum n m i f) i := by
  have hchar := mget_escalaAum h.rect i f
  have him : i < m.length := by rw [h.len]; exact hin
  refine ⟨by rw [length_escalaAum, h.len], rect_escalaAum h.rect i f, h.ile, ?_, ?_, ?_⟩
  · intro t ht
    rw [hchar, if_neg (fun hc => absurd hc.1 (by omega))]
    exact h.diag t ht
  · intro t ht k hk1 hk2
    rw [hchar]
    split
    next hc =>
      rw [hc.1] at hk1
      rw [h.below t ht i hk1 hin, zero_mul]
    next => exact h.below t ht k hk1 hk2
  · intro r hr j hj
    rcases eq_or_ne r i with hri | hri
    · subst hri
      rw [hchar, if_pos ⟨rfl, him⟩,
        dotSum_congr (fun k hk => by rw [hchar, if_pos ⟨rfl, him⟩])]
      have hpull : dotSum n (fun k => mget m r (n + k) * f * mget A k j)
          = dotSum n (fun k => mget m r (n + k) * mget A k j) * f := by
        rw [← dotSum_mul_right]
        exact dotSum_congr (fun k hk => by ring)
      rw [hpull, ← h.rel r hr j hj]
    · rw [hchar, if_neg (fun hc => hri hc.1),
        dotSum_congr (fun k hk => by rw [hchar, if_neg (fun hc => hri hc.1)])]
      exact h.rel r hr j hj

/-- After the cursor row holds a unit pivot, the downward elimination loop
advances the inversion forward invariant by one column. -/
theorem InvFwdS.elimAug {n : ℕ} {A m : Mat} {i : ℕ} (h : InvFwdS n A m i)
    (hin : i < n) (hone : mget m i i = 1) (hist : List LogEntry) :
    InvFwdS n A (invElimBelow n i (List.range' (i + 1) (n - (i + 1))) m hist).1 (i + 1) := by
  have hmem : ∀ x ∈ List.range' (i + 1) (n - (i + 1)), i + 1 ≤ x ∧ x < n := by
    intro x hx
    rw [List.mem_range'_1] at hx
    omega
  obtain ⟨hL, hR, hNT, hZ, hCH⟩ := invElim_spec n i (List.range' (i + 1) (n - (i + 1))) m hist
    h.rect (fun x hx => ⟨by have := hmem x hx; omega, by rw [h.len]; exact (hmem x hx).2⟩) hone
  have hNTle : ∀ r j, r ≤ i → mget (invElimBelow n i
      (List.range' (i + 1) (n - (i + 1))) m hist).1 r j = mget m r j := by
    intro r j hr
    refine hNT r j ?_
    intro x hx
    have := hmem x hx
    omega
  refine ⟨hL.trans h.len, hR, by omega, ?_, ?_, ?_⟩
  · intro t ht
    rw [hNTle t t (by omega)]
    rcases lt_or_le t i with hti | hti
    · exact h.diag t hti
    · have : t = i := by omega
      subst this
      exact hone
  · intro t ht k hk1 hk2
    rcases lt_or_le t i with hti | hti
    · rcases hCH k with hc | ⟨f, hc⟩
      · rw [hc t]
        exact h.below t hti k hk1 hk2
      · rw [hc t, h.below t hti i hti hin, mul_zero, add_zero]
        exact h.below t hti k hk1 hk2
    · have : t = i := by omega
      subst this
      exact hZ k (by rw [List.mem_range'_1]; omega)
  · exact rel_of_change h.rel hin hCH

/-- Determinant preservation across the augmented elimination loop. -/
theorem invElim_det (n i : ℕ) (hin : i < n) :
    ∀ (l : List ℕ) (m : Mat) (hist : List LogEntry),
      Rect m (2 * n) → m.length = n → (∀ x ∈ l, x ≠ i ∧ x < n) →
      (toMat n (invElimBelow n i l m hist).1).det = (toMat n m).det := by
  intro l
  induction l with
  | nil =>
    intro m hist _ _ _
    rfl
  | cons x rest ih =>
    intro m hist hrect hlen hl
    obtain ⟨hxi, hxn⟩ := hl x (List.mem_cons_self _ _)
    by_cases hxz : mget m x i ≠ 0
    · simp only [invElimBelow, if_pos hxz]
      rw [ih _ _ (rect_combinaAum hrect x i _) (by rw [length_combinaAum]; exact hlen)
        (fun y hy => hl y (List.mem_cons_of_mem _ hy))]
      exact det_toMat_combina hrect hlen hxn hin hxi _
    · simp only [invElimBelow, if_neg hxz]
      exact ih _ _ hrect hlen (fun y hy => hl y (List.mem_cons_of_mem _ hy))

/-- When `invColuna` reports a zero pivot, the left half of the augmented
matrix is singular. -/
theorem invColuna_none {n : ℕ} {A m : Mat} {i : ℕ} (h : InvFwdS n A m i) (hin : i < n)
    (passo : ℕ) {entries : List LogEntry}
    (heq : invColuna n m i passo = (none, entries)) :
    (toMat n m).det = 0 := by
  unfold invColuna at heq
  dsimp only at heq
  by_cases hz : mget m (invPivo m i (List.range' (i + 1) (n - (i + 1))) i) i = 0
  · obtain ⟨hmem, hle0, hall⟩ := invPivo_spec m i (List.range' (i + 1) (n - (i + 1))) i
    have hzero_col : ∀ r, i ≤ r → r < n → mget m r i = 0 := by
      intro r hir hrn
      rcases eq_or_lt_of_le hir with hri | hri
      · rw [hz, abs_zero] at hle0
        rw [← hri]
        exact abs_nonpos_iff.1 hle0
      · have h1 := hall r (by rw [List.mem_range'_1]; omega)
        rw [hz, abs_zero] at h1
        exact abs_nonpos_iff.1 h1
    refine det_eq_zero_of_block (toMat n m) i hin ?_ ?_
    · intro r c hr hc
      show mget m r.1 c.1 = 0
      exact h.below c.1 hc r.1 (by omega) r.2
    · intro r hr
      show mget m r.1 i = 0
      exact hzero_col r.1 hr r.2
  · rw [if_neg hz] at heq
    exact absurd heq (by simp)

/-- When `invColuna` succeeds, the inversion forward invariant advances one
column and the determinant of the left half changes by a non-zero factor. -/
theorem invColuna_some {n : ℕ} {A m : Mat} {i : ℕ} (h : InvFwdS n A m i) (hin : i < n)
    (passo : ℕ) {m' : Mat} {entries : List LogEntry}
    (heq : invColuna n m i passo = (some m', entries)) :
    InvFwdS n A m' (i + 1) ∧ ∃ c : ℚ, c ≠ 0 ∧ (toMat n m').det = c * (toMat n m).det := by
  unfold invColuna at heq
  dsimp only at heq
  set pivo := invPivo m i (List.range' (i + 1) (n - (i + 1))) i with hpivo
  by_cases hz : mget m pivo i = 0
  · rw [if_pos hz] at heq
    exact absurd heq (by simp)
  · rw [if_neg hz] at heq
    obtain ⟨hmem, -, -⟩ := invPivo_spec m i (List.range' (i + 1) (n - (i + 1))) i
    rw [← hpivo] at hmem
    have hpb : i ≤ pivo ∧ pivo < n := by
      rcases hmem with hm | hm
      · omega
      · rw [List.mem_range'_1] at hm
        omega
    have htargets : ∀ x ∈ List.range' (i + 1) (n - (i + 1)), x ≠ i ∧ x < n := by
      intro x hx
      rw [List.mem_range'_1] at hx
      exact ⟨by omega, by omega⟩
    by_cases hswap : pivo ≠ i
    · rw [if_pos hswap] at heq
      dsimp only at heq
      have hinv1 : InvFwdS n A (trocar_linhas m i pivo) i := h.swapAug hpb.1 hpb.2 hin
      have hdet1 : (toMat n (trocar_linhas m i pivo)).det = -(toMat n m).det :=
        det_toMat_trocar h.len hin hpb.2 (fun hc => hswap hc.symm)
      have hval1 : mget (trocar_linhas m i pivo) i i = mget m pivo i := by
        rw [mget_trocar (by rw [h.len]; exact hin) (by rw [h.len]; exact hpb.2), if_pos rfl]
      have hv : mget (trocar_linhas m i pivo) i i ≠ 0 := by
        rw [hval1]
        exact hz
      by_cases hone : mget (trocar_linhas m i pivo) i i ≠ 1
      · rw [if_pos hone] at heq
        dsimp only at heq
        injection heq with h1 h2
        injection h1 with h1
        subst h1
        have hinv2 := hinv1.scaleAug hin (1 / mget (trocar_linhas m i pivo) i i)
        have hdet2 := det_toMat_escala hinv1.rect hinv1.len hin
          (1 / mget (trocar_linhas m i pivo) i i)
        have hval2 : mget (escalaLinhaAum n (trocar_linhas m i pivo) i
            (1 / mget (trocar_linhas m i pivo) i i)) i i = 1 := by
          rw [mget_escalaAum hinv1.rect, if_pos ⟨rfl, by rw [hinv1.len]; exact hin⟩]
          exact mul_one_div_cancel hv
        refine ⟨hinv2.elimAug hin hval2 [], ?_⟩
        refine ⟨-(1 / mget (trocar_linhas m i pivo) i i),
          neg_ne_zero.2 (one_div_ne_zero hv), ?_⟩
        rw [invElim_det n i hin _ _ [] hinv2.rect hinv2.len htargets, hdet2, hdet1]
        ring
      · rw [if_neg hone] at heq
        dsimp only at heq
        injection heq with h1 h2
        injection h1 with h1
        subst h1
        push_neg at hone
        refine ⟨hinv1.elimAug hin hone [], -1, by norm_num, ?_⟩
        rw [invElim_det n i hin _ _ [] hinv1.rect hinv1.len htargets, hdet1]
        ring
    · rw [if_neg hswap] at heq
      dsimp only at heq
      push_neg at hswap
      have hv : mget m i i ≠ 0 := hswap ▸ hz
      by_cases hone : mget m i i ≠ 1
      · rw [if_pos hone] at heq
        dsimp only at heq
        injection heq with h1 h2
        injection h1 with h1
        subst h1
        have hinv2 := h.scaleAug hin (1 / mget m i i)
        have hdet2 := det_toMat_escala h.rect h.len hin (1 / mget m i i)
        have hval2 : mget (escalaLinhaAum n m i (1 / mget m i i)) i i = 1 := by
          rw [mget_escalaAum h.rect, if_pos ⟨rfl, by rw [h.len]; exact hin⟩]
          exact mul_one_div_cancel hv
        refine ⟨hinv2.elimAug hin hval2 [], ?_⟩
        refine ⟨1 / mget m i i, one_div_ne_zero hv, ?_⟩
        rw [invElim_det n i hin _ _ [] hinv2.rect hinv2.len htargets, hdet2]
      · rw [if_neg hone] at heq
        dsimp only at heq
        injection heq with h1 h2
        injection h1 with h1
        subst h1
        push_neg at hone
        refine ⟨h.elimAug hin hone [], 1, one_ne_zero, ?_⟩
        rw [invElim_det n i hin _ _ [] h.rect h.len htargets]
        ring

/-- The forward loop of `calcular_inversa`: on success the invariant reaches
column `n` with a non-zero determinant factor, and a non-singular left half
guarantees success. -/
theorem invForward_inv (fuel : ℕ) :
    ∀ (n : ℕ) (A m : Mat) (hist : List LogEntry) (i passo : ℕ),
      n ≤ fuel + i → InvFwdS n A m i →
      (∀ mF histF, invForward fuel n i passo m hist = (some mF, histF) →
        InvFwdS n A mF n ∧ ∃ c : ℚ, c ≠ 0 ∧ (toMat n mF).det = c * (toMat n m).det) ∧
      ((toMat n m).det ≠ 0 →
        ∃ mF histF, invForward fuel n i passo m hist = (some mF, histF)) := by
  induction fuel with
  | zero =>
    intro n A m hist i passo hfuel hinv
    have hieq : i = n := by
      have := hinv.ile
      omega
    constructor
    · intro mF histF heq
      rw [invForward] at heq
      simp only [Prod.mk.injEq, Option.some.injEq] at heq
      obtain ⟨h1, h2⟩ := heq
      subst h1
      subst hieq
      exact ⟨hinv, 1, one_ne_zero, (one_mul _).symm⟩
    · intro hdet
      exact ⟨m, hist, by rw [invForward]⟩
  | succ fuel ih =>
    intro n A m hist i passo hfuel hinv
    by_cases hin : i < n
    · rcases hcol : invColuna n m i passo with ⟨o, entries⟩
      cases o with
      | none =>
        constructor
        · intro mF histF heq
          rw [invForward, if_pos hin, hcol] at heq
          exact absurd heq (by simp)
        · intro hdet
          exact absurd (invColuna_none hinv hin passo hcol) hdet
      | some m1 =>
        obtain ⟨hinv', c1, hc1, hdet1⟩ := invColuna_some hinv hin passo hcol
        obtain ⟨ihA, ihB⟩ := ih n A m1 (hist ++ entries) (i + 1) (passo + 1) (by omega) hinv'
        constructor
        · intro mF histF heq
          rw [invForward, if_pos hin, hcol] at heq
          obtain ⟨hF, c2, hc2, hdet2⟩ := ihA mF histF heq
          exact ⟨hF, c2 * c1, mul_ne_zero hc2 hc1, by rw [hdet2, hdet1]; ring⟩
        · intro hdet
          obtain ⟨mF, histF, heq⟩ := ihB (by rw [hdet1]; exact mul_ne_zero hc1 hdet)
          refine ⟨mF, histF, ?_⟩
          rw [invForward, if_pos hin, hcol]
          exact heq
    · have hieq : i = n := by
        have := hinv.ile
        omega
      constructor
      · intro mF histF heq
        rw [invForward, if_neg hin] at heq
        simp only [Prod.mk.injEq, Option.some.injEq] at heq
        obtain ⟨h1, h2⟩ := heq
        subst h1
        subst hieq
        exact ⟨hinv, 1, one_ne_zero, (one_mul _).symm⟩
      · intro hdet
        exact ⟨m, hist, by rw [invForward, if_neg hin]⟩

/-- One step of the backward phase of `calcular_inversa`: clearing column
`s + 1` above the diagonal. -/
theorem InvBack.back_step {n : ℕ} {A m : Mat} {s : ℕ} (h : InvBack n A m (s + 1))
    (hsn : s + 1 < n) (hist : List LogEntry) :
    InvBack n A (invBackElim n (s + 1) ((List.range (s + 1)).reverse) m hist).1 s := by
  rw [invBackElim_eq]
  have hone : mget m (s + 1) (s + 1) = 1 := h.diag (s + 1) hsn
  have htargets : ∀ x ∈ (List.range (s + 1)).reverse, x ≠ s + 1 ∧ x < m.length := by
    intro x hx
    rw [List.mem_reverse, List.mem_range] at hx
    refine ⟨by omega, by rw [h.len]; omega⟩
  obtain ⟨hL, hR, hNT, hZ, hCH⟩ := invElim_spec n (s + 1) ((List.range (s + 1)).reverse) m
    hist h.rect htargets hone
  have hNTge : ∀ r j, s + 1 ≤ r →
      mget (invElimBelow n (s + 1) ((List.range (s + 1)).reverse) m hist).1 r j
        = mget m r j := by
    intro r j hr
    refine hNT r j ?_
    intro x hx
    rw [List.mem_reverse, List.mem_range] at hx
    omega
  refine ⟨hL.trans h.len, hR, ?_, ?_, ?_, ?_⟩
  · intro t ht
    rcases lt_or_le t (s + 1) with hts | hts
    · rcases hCH t with hc | ⟨f, hc⟩
      · rw [hc t]
        exact h.diag t ht
      · rw [hc t, h.below t ht (s + 1) hts hsn, mul_zero, add_zero]
        exact h.diag t ht
    · rw [hNTge t t hts]
      exact h.diag t ht
  · intro t ht k hk1 hk2
    rcases lt_or_le t (s + 1) with hts | hts
    · rcases hCH k with hc | ⟨f, hc⟩
      · rw [hc t]
        exact h.below t ht k hk1 hk2
      · rw [hc t, h.below t ht (s + 1) hts hsn, mul_zero, add_zero]
        exact h.below t ht k hk1 hk2
    · rw [hNTge k t (by omega)]
      exact h.below t ht k hk1 hk2
  · intro t ht1 ht2 k hkt
    rcases eq_or_lt_of_le (by omega : s + 1 ≤ t) with hteq | htgt
    · subst hteq
      refine hZ k ?_
      rw [List.mem_reverse, List.mem_range]
      omega
    · rcases hCH k with hc | ⟨f, hc⟩
      · rw [hc t]
        exact h.above t (by omega) ht2 k hkt
      · rw [hc t, h.above t (by omega) ht2 (s + 1) (by omega), mul_zero, add_zero]
        exact h.above t (by omega) ht2 k hkt
  · exact rel_of_change h.rel hsn hCH

/-- The backward loop over columns `s, s-1, …, 1` drives the backward
invariant to `0`. -/
theorem invBackward_inv (s : ℕ) :
    ∀ (n : ℕ) (A m : Mat) (hist : List LogEntry),
      s < n → InvBack n A m s →
      InvBack n A (invBackward n ((List.range' 1 s).reverse) m hist).1 0 := by
  induction s with
  | zero =>
    intro n A m hist h0 hinv
    simpa [invBackward] using hinv
  | succ s ih =>
    intro n A m hist h0 hinv
    have hsplit : (List.range' 1 (s + 1)).reverse
        = (s + 1) :: (List.range' 1 s).reverse := by
      rw [List.range'_concat, List.reverse_append]
      simp [Nat.add_comm]
    rw [hsplit, invBackward]
    exact ih n A _ _ (by omega) (hinv.back_step h0 hist)

theorem mget_extract {mB : Mat} {n : ℕ} {r : ℕ} (hr : r < n) (k : ℕ) :
    mget ((List.range n).map (fun i => (mB.getD i []).drop n)) r k
      = mget mB r (n + k) := by
  unfold mget
  have hrow : (((List.range n).map (fun i => (mB.getD i []).drop n)).getD r [])
      = (mB.getD r []).drop n := by
    rw [List.getD_eq_getElem?_getD, List.getElem?_map, List.getElem?_range hr]
    rfl
  rw [hrow, List.getD_eq_getElem?_getD, List.getElem?_drop, ← List.getD_eq_getElem?_getD]

theorem dotSum_delta (n r : ℕ) (hr : r < n) (g : ℕ → ℚ) :
    dotSum n (fun k => (if r = k then (1 : ℚ) else 0) * g k) = g r := by
  rw [dotSum_eq_sum,
    Finset.sum_congr rfl (fun k _ => by rw [ite_mul, one_mul, zero_mul]),
    Finset.sum_ite_eq (Finset.range n) r g]
  exact if_pos (Finset.mem_range.2 hr)

theorem mget_aug_left {A : Mat} {n : ℕ} (hrect : Rect A n) (hlen : A.length = n)
    {r : ℕ} (hr : r < n) {j : ℕ} (hj : j < n) :
    mget ((List.range n).map (fun i => A.getD i [] ++ idRow n i)) r j = mget A r j := by
  unfold mget
  have hrow : (((List.range n).map (fun i => A.getD i [] ++ idRow n i)).getD r [])
      = A.getD r [] ++ idRow n r := by
    rw [List.getD_eq_getElem?_getD, List.getElem?_map, List.getElem?_range hr]
    rfl
  have hlr : (A.getD r []).length = n := getD_row_length hrect (by omega)
  rw [hrow, List.getD_eq_getElem?_getD, List.getElem?_append, if_pos (by rw [hlr]; exact hj),
    ← List.getD_eq_getElem?_getD]

theorem mget_aug_right {A : Mat} {n : ℕ} (hrect : Rect A n) (hlen : A.length = n)
    {r : ℕ} (hr : r < n) {k : ℕ} (hk : k < n) :
    mget ((List.range n).map (fun i => A.getD i [] ++ idRow n i)) r (n + k)
      = if r = k then 1 else 0 := by
  unfold mget
  have hrow : (((List.range n).map (fun i => A.getD i [] ++ idRow n i)).getD r [])
      = A.getD r [] ++ idRow n r := by
    rw [List.getD_eq_getElem?_getD, List.getElem?_map, List.getElem?_range hr]
    rfl
  have hlr : (A.getD r []).length = n := getD_row_length hrect (by omega)
  rw [hrow, List.getD_eq_getElem?_getD, List.getElem?_append,
    if_neg (by rw [hlr]; omega), ← List.getD_eq_getElem?_getD, hlr]
  have hidx : n + k - n = k := by omega
  rw [hidx]
  unfold idRow
  rw [getD_range_map, if_pos hk]

/-- Master specification of `calcular_inversa` on a square non-empty engine:
the stored matrix is always restored to the original; a non-singular matrix
guarantees success; every returned inverse `B` is an `n × n` matrix with
`B ⬝ A = 1`; and the only possible outcomes are success or `NotInvertible`. -/
theorem calcular_inversa_spec {e : Engine} {n : ℕ} (hlen : e.matriz.length = n)
    (h0 : 0 < n) (hrect : Rect e.matriz n) :
    (calcular_inversa e).2.matriz = e.matriz ∧
    ((toMat n e.matriz).det ≠ 0 → ∃ B, (calcular_inversa e).1 = Except.ok B) ∧
    (∀ B, (calcular_inversa e).1 = Except.ok B →
      B.length = n ∧ Rect B n ∧ toMat n B * toMat n e.matriz = 1) ∧
    ((calcular_inversa e).1 = Except.error PyErr.notInvertible ∨
      ∃ B, (calcular_inversa e).1 = Except.ok B) := by
  obtain ⟨m, hist, pv⟩ := e
  dsimp only at hlen hrect ⊢
  cases m with
  | nil =>
    rw [List.length_nil] at hlen
    omega
  | cons linha0 resto =>
    have hl0 : linha0.length = n := hrect linha0 (List.mem_cons_self _ _)
    subst hlen
    unfold calcular_inversa
    dsimp only
    rw [if_neg (not_ne_iff.2 hl0.symm)]
    set A : Mat := linha0 :: resto with hA
    set len : ℕ := A.length with hlenA
    set aug : Mat := (List.range len).map (fun i => A.getD i [] ++ idRow len i) with haug
    set hist0 : List LogEntry :=
      [LogEntry.matriz "Matriz aumentada [A|I] inicial:" (matriz_copia aug)] with hhist0
    have haug_len : aug.length = len := by
      rw [haug]
      simp
    have haug_rect : Rect aug (2 * len) := by
      intro row hrow
      obtain ⟨i, hi, hrfl⟩ := List.mem_map.1 hrow
      rw [List.mem_range] at hi
      rw [← hrfl, List.length_append, getD_row_length hrect (by omega)]
      have : (idRow len i).length = len := by
        unfold idRow
        simp
      rw [this]
      ring
    have hinv0 : InvFwdS len A aug 0 := by
      refine ⟨haug_len, haug_rect, by omega, ?_, ?_, ?_⟩
      · intro t ht
        omega
      · intro t ht
        omega
      · intro r hr j hj
        rw [mget_aug_left hrect rfl hr hj,
          dotSum_congr (fun k hk => by rw [mget_aug_right hrect rfl hr hk]),
          dotSum_delta len r hr (fun k => mget A k j)]
    have htoMataug : toMat len aug = toMat len A := by
      ext r c
      show mget aug r.1 c.1 = mget A r.1 c.1
      exact mget_aug_left hrect rfl r.2 c.2
    rcases hF : invForward len len 0 1 aug hist0 with ⟨o, histo⟩
    cases o with
    | none =>
      dsimp only
      refine ⟨rfl, ?_, ?_, Or.inl rfl⟩
      · intro hdet
        obtain ⟨mF, histF, hsucc⟩ :=
          (invForward_inv len len A aug hist0 0 1 (by omega) hinv0).2
            (by rw [htoMataug]; exact hdet)
        rw [hF] at hsucc
        exact absurd hsucc (by simp)
      · intro B hB
        exact absurd hB (by simp)
    | some mF =>
      dsimp only
      obtain ⟨hIF, -⟩ := (invForward_inv len len A aug hist0 0 1 (by omega) hinv0).1
        mF histo hF
      have hIB : InvBack len A mF (len - 1) :=
        ⟨hIF.len, hIF.rect, fun t ht => hIF.diag t ht, fun t ht => hIF.below t ht,
         fun t ht1 ht2 k hk => absurd ht1 (by omega), hIF.rel⟩
      have hBack := invBackward_inv (len - 1) len A mF
        (histo ++ [LogEntry.passo "--- FASE DE ELIMINAÇÃO PARA TRÁS ---"]) (by omega) hIB
      set mB : Mat := (invBackward len ((List.range' 1 (len - 1)).reverse) mF
        (histo ++ [LogEntry.passo "--- FASE DE ELIMINAÇÃO PARA TRÁS ---"])).1 with hmB
      set B : Mat := (List.range len).map (fun i => (mB.getD i []).drop len) with hB
      have hBlen : B.length = len := by
        rw [hB]
        simp
      have hBrect : Rect B len := by
        intro row hrow
        obtain ⟨i, hi, hrfl⟩ := List.mem_map.1 hrow
        rw [List.mem_range] at hi
        rw [← hrfl, List.length_drop, getD_row_length hBack.rect (by rw [hBack.len]; omega)]
        omega
      have hid : ∀ r c : Fin len, mget mB r.1 c.1 = if r = c then (1 : ℚ) else 0 := by
        intro r c
        rcases lt_trichotomy r.1 c.1 with hlt | heq | hgt
        · rw [if_neg (Fin.ne_of_val_ne (by omega)),
            hBack.above c.1 (by omega) c.2 r.1 hlt]
        · rw [if_pos (Fin.ext heq)]
          have := hBack.diag r.1 r.2
          rw [← heq]
          exact this
        · rw [if_neg (Fin.ne_of_val_ne (by omega)),
            hBack.below c.1 c.2 r.1 hgt r.2]
      have hprod : toMat len B * toMat len A = 1 := by
        ext r c
        rw [Matrix.mul_apply, Matrix.one_apply]
        have hsum : ∑ k : Fin len, toMat len B r k * toMat len A k c
            = dotSum len (fun k => mget mB r.1 (len + k) * mget A k c.1) := by
          rw [dotSum_eq_sum,
            ← Fin.sum_univ_eq_sum_range (fun k => mget mB r.1 (len + k) * mget A k c.1) len]
          refine Finset.sum_congr rfl ?_
          intro k _
          have hBk : toMat len B r k = mget mB r.1 (len + k.1) := by
            show mget B r.1 k.1 = mget mB r.1 (len + k.1)
            rw [hB]
            exact mget_extract r.2 k.1
          rw [hBk]
          rfl
        rw [hsum, ← hBack.rel r.1 r.2 c.1 c.2, hid r c]
      refine ⟨rfl, ?_, ?_, Or.inr ⟨B, rfl⟩⟩
      · intro hdet
        exact ⟨B, rfl⟩
      · intro B' hB'
        have hBB' : B = B' := by
          injection hB'
        rw [← hBB']
        exact ⟨hBlen, hBrect, hprod⟩

/-- C4 witness: on `[[1,2],[-3,4],[3,5]]` the scan of column 0 from row 0
returns row 1 (first row attaining the maximal absolute value 3), and on
`[[0,1],[0,2]]` with an all-zero column 0 the loop advances the column only. -/
theorem C4_witness :
    (∃ r, encontrar_pivo [[1, 2], [-3, 4], [3, 5]] 0 0 = some r ∧
      0 ≤ r ∧ r < ([[1, 2], [-3, 4], [3, 5]] : Mat).length ∧
      (∀ x, 0 ≤ x → x < ([[1, 2], [-3, 4], [3, 5]] : Mat).length →
        |mget [[1, 2], [-3, 4], [3, 5]] x 0| ≤ |mget [[1, 2], [-3, 4], [3, 5]] r 0|) ∧
      (∀ x, 0 ≤ x → x < r →
        |mget [[1, 2], [-3, 4], [3, 5]] x 0| < |mget [[1, 2], [-3, 4], [3, 5]] r 0|)) ∧
    forwardLoop 2 2 2 [[0, 1], [0, 2]] [] [] 0 0 1 =
      forwardLoop 1 2 2 [[0, 1], [0, 2]]
        ([] ++ [LogEntry.passo ("--- PASSO " ++ toString 1 ++ " (Fase descendente) ---")])
        [] 0 1 2 :=
  ⟨C4_pivot_selection.1 [[1, 2], [-3, 4], [3, 5]] 0 0 (by decide) (by decide),
   C4_pivot_selection.2 1 2 2 [[0, 1], [0, 2]] [] [] 0 0 1 (by decide) (by decide) (by decide)
     (by decide)⟩


theorem mget_idMat {n i j : ℕ} (hi : i < n) (hj : j < n) :
    mget (idMat n) i j = if i = j then 1 else 0 := by
  have hrow : (idMat n).getD i [] = idRow n i := by
    unfold idMat
    rw [List.getD_eq_getElem?_getD, List.getElem?_map, List.getElem?_range hi]
    rfl
  unfold mget
  rw [hrow]
  unfold idRow
  rw [getD_range_map, if_pos hj]

theorem toMat_inj {n : ℕ} {a b : Mat} (ha : a.length = n) (hra : Rect a n)
    (hb : b.length = n) (hrb : Rect b n) (h : toMat n a = toMat n b) : a = b := by
  apply List.ext_getElem (ha.trans hb.symm)
  intro i h1 h2
  have hi : i < n := ha ▸ h1
  have hrowa : a[i].length = n := hra _ (List.getElem_mem h1)
  have hrowb : b[i].length = n := hrb _ (List.getElem_mem h2)
  apply List.ext_getElem (hrowa.trans hrowb.symm)
  intro j hj1 hj2
  have hj : j < n := hrowa ▸ hj1
  have hentry := congrFun (congrFun h ⟨i, hi⟩) ⟨j, hj⟩
  simp only [toMat, Matrix.of_apply, Fin.val_mk, mget] at hentry
  rw [List.getD_eq_getElem a [] h1, List.getD_eq_getElem b [] h2,
    List.getD_eq_getElem _ 0 hj1, List.getD_eq_getElem _ 0 hj2] at hentry
  exact hentry

/-- C2: for every engine holding a square invertible matrix (nonzero
determinant), `calcular_inversa` succeeds, and `verificar_inversa` on the
original matrix and the returned inverse yields the `true` flag together with
a product equal to the identity of the same order; in particular
`[[2,1,1],[1,3,2],[1,0,0]]` inverts to exactly `[[0,0,1],[-2,1,3],[3,-1,-5]]`. -/
theorem C2_inverse_verified {e : Engine} {n : ℕ} (hlen : e.matriz.length = n)
    (h0 : 0 < n) (hrect : Rect e.matriz n)
    (hdet : (toMat n e.matriz).det ≠ 0) :
    (∃ B, (calcular_inversa e).1 = Except.ok B ∧
      verificar_inversa e.matriz B = (true, idMat n)) ∧
    (calcular_inversa (init [[2, 1, 1], [1, 3, 2], [1, 0, 0]])).1 =
      Except.ok [[0, 0, 1], [-2, 1, 3], [3, -1, -5]] := by
  obtain ⟨h1, h2, h3, h4⟩ := calcular_inversa_spec hlen h0 hrect
  obtain ⟨B, hB⟩ := h2 hdet
  obtain ⟨hBlen, hBrect, hBA⟩ := h3 B hB
  have hAB : toMat n e.matriz * toMat n B = 1 := Matrix.mul_eq_one_comm.1 hBA
  refine ⟨⟨B, hB, ?_⟩, by rfl⟩
  unfold verificar_inversa
  dsimp only
  rw [hlen]
  have hprod : (List.range n).map (fun i => (List.range n).map (fun j =>
      dotSum n (fun k => mget e.matriz i k * mget B k j))) = idMat n := by
    unfold idMat idRow
    refine List.map_congr_left ?_
    intro i hi
    rw [List.mem_range] at hi
    refine List.map_congr_left ?_
    intro j hj
    rw [List.mem_range] at hj
    have hentry := congrFun (congrFun hAB ⟨i, hi⟩) ⟨j, hj⟩
    rw [Matrix.mul_apply, Matrix.one_apply] at hentry
    simp only [toMat, Matrix.of_apply, Fin.val_mk, Fin.mk.injEq] at hentry
    rw [dotSum_eq_sum,
      ← Fin.sum_univ_eq_sum_range (fun k => mget e.matriz i k * mget B k j) n]
    exact hentry
  rw [hprod, Prod.mk.injEq]
  refine ⟨?_, rfl⟩
  simp only [List.all_eq_true, List.mem_range]
  intro i hi j hj
  rw [beq_iff_eq]
  exact mget_idMat hi hj

/-- C2 witness: the theorem applied to the concrete invertible matrix
`[[2,1,1],[1,3,2],[1,0,0]]` of the claim (order 3, nonzero determinant). -/
theorem C2_witness :
    (∃ B, (calcular_inversa (init [[2, 1, 1], [1, 3, 2], [1, 0, 0]])).1 = Except.ok B ∧
      verificar_inversa (init [[2, 1, 1], [1, 3, 2], [1, 0, 0]]).matriz B =
        (true, idMat 3)) ∧
    (calcular_inversa (init [[2, 1, 1], [1, 3, 2], [1, 0, 0]])).1 =
      Except.ok [[0, 0, 1], [-2, 1, 3], [3, -1, -5]] :=
  @C2_inverse_verified (init [[2, 1, 1], [1, 3, 2], [1, 0, 0]]) 3
    (by decide) (by decide) (by decide) (by rw [Matrix.det_fin_three]; decide)

/-- C3: on a singular square matrix the inversion fails with the
`NotInvertible` error and the engine leaves its stored matrix exactly as it
was before the call (the run mutates only the internal augmented copy). -/
theorem C3_singular_not_invertible {e : Engine} {n : ℕ} (hlen : e.matriz.length = n)
    (h0 : 0 < n) (hrect : Rect e.matriz n) (hdet : (toMat n e.matriz).det = 0) :
    (calcular_inversa e).1 = Except.error PyErr.notInvertible ∧
    (calcular_inversa e).2.matriz = e.matriz := by
  obtain ⟨h1, h2, h3, h4⟩ := calcular_inversa_spec hlen h0 hrect
  refine ⟨?_, h1⟩
  rcases h4 with h | ⟨B, hB⟩
  · exact h
  · exfalso
    obtain ⟨hBlen, hBrect, hBA⟩ := h3 B hB
    have hd := congrArg Matrix.det hBA
    rw [Matrix.det_mul, hdet, mul_zero, Matrix.det_one] at hd
    exact zero_ne_one hd

/-- C3 witness: the theorem applied to the singular matrix
`[[1,2,3],[4,5,6],[7,8,9]]` (determinant zero). -/
theorem C3_witness :
    (calcular_inversa (init [[1, 2, 3], [4, 5, 6], [7, 8, 9]])).1 =
      Except.error PyErr.notInvertible ∧
    (calcular_inversa (init [[1, 2, 3], [4, 5, 6], [7, 8, 9]])).2.matriz =
      (init [[1, 2, 3], [4, 5, 6], [7, 8, 9]]).matriz :=
  @C3_singular_not_invertible (init [[1, 2, 3], [4, 5, 6], [7, 8, 9]]) 3
    (by decide) (by decide) (by decide) (by rw [Matrix.det_fin_three]; decide)

/-- C6: inverting twice is the identity: for an invertible square matrix the
inverse `B` exists, and running `calcular_inversa` on a fresh engine built
from `B` returns exactly the original matrix, under rational equality. -/
theorem C6_involution {e : Engine} {n : ℕ} (hlen : e.matriz.length = n)
    (h0 : 0 < n) (hrect : Rect e.matriz n)
    (hdet : (toMat n e.matriz).det ≠ 0) :
    ∃ B, (calcular_inversa e).1 = Except.ok B ∧
      (calcular_inversa (init B)).1 = Except.ok e.matriz := by
  obtain ⟨h1, h2, h3, h4⟩ := calcular_inversa_spec hlen h0 hrect
  obtain ⟨B, hB⟩ := h2 hdet
  obtain ⟨hBlen, hBrect, hBA⟩ := h3 B hB
  refine ⟨B, hB, ?_⟩
  have hinitB : (init B).matriz = B := by rw [init_eq]
  have hlen2 : (init B).matriz.length = n := by rw [hinitB]; exact hBlen
  have hrect2 : Rect (init B).matriz n := by rw [hinitB]; exact hBrect
  obtain ⟨h1b, h2b, h3b, h4b⟩ := calcular_inversa_spec hlen2 h0 hrect2
  have hdetB : (toMat n (init B).matriz).det ≠ 0 := by
    rw [hinitB]
    intro hz
    have hd := congrArg Matrix.det hBA
    rw [Matrix.det_mul, hz, zero_mul, Matrix.det_one] at hd
    exact zero_ne_one hd
  obtain ⟨C, hC⟩ := h2b hdetB
  obtain ⟨hClen, hCrect, hCB⟩ := h3b C hC
  rw [hinitB] at hCB
  have hCA : toMat n C = toMat n e.matriz := by
    calc toMat n C = toMat n C * (toMat n B * toMat n e.matriz) := by
          rw [hBA, mul_one]
    _ = toMat n C * toMat n B * toMat n e.matriz := by rw [mul_assoc]
    _ = toMat n e.matriz := by rw [hCB, one_mul]
  rw [hC, toMat_inj hClen hCrect hlen hrect hCA]

/-- C6 witness: the theorem applied to the invertible matrix
`[[2,1,1],[1,3,2],[1,0,0]]`. -/
theorem C6_witness :
    ∃ B, (calcular_inversa (init [[2, 1, 1], [1, 3, 2], [1, 0, 0]])).1 = Except.ok B ∧
      (calcular_inversa (init B)).1 =
        Except.ok (init [[2, 1, 1], [1, 3, 2], [1, 0, 0]]).matriz :=
  @C6_involution (init [[2, 1, 1], [1, 3, 2], [1, 0, 0]]) 3
    (by decide) (by decide) (by decide) (by rw [Matrix.det_fin_three]; decide)


theorem invForward_fail_decomp (fuel : ℕ) :
    ∀ (n i passo : ℕ) (m : Mat) (hist : List LogEntry),
      (invForward fuel n i passo m hist).1 = none →
      ∃ (k : ℕ) (ms : List Mat), k < fuel ∧ i + k < n ∧ ms.length = k + 1 ∧
        ms.getD 0 [] = m ∧
        (∀ j, j < k → (invColuna n (ms.getD j []) (i + j) (passo + j)).1
            = some (ms.getD (j + 1) [])) ∧
        (invColuna n (ms.getD k []) (i + k) (passo + k)).1 = none ∧
        (invForward fuel n i passo m hist).2 = hist ++
          ((List.range (k + 1)).map
            (fun j => (invColuna n (ms.getD j []) (i + j) (passo + j)).2)).flatten := by
  induction fuel with
  | zero =>
    intro n i passo m hist h
    rw [invForward] at h
    exact absurd h (by simp)
  | succ fuel ih =>
    intro n i passo m hist h
    by_cases hin : i < n
    · rcases hcol : invColuna n m i passo with ⟨o, entries⟩
      cases o with
      | none =>
        refine ⟨0, [m], Nat.succ_pos fuel, by omega, rfl, rfl, ?_, ?_, ?_⟩
        · intro j hj
          exact absurd hj (Nat.not_lt_zero j)
        · simp only [List.getD_cons_zero, Nat.add_zero]
          rw [hcol]
        · rw [invForward, if_pos hin, hcol]
          dsimp only
          simp [List.range_succ, hcol]
      | some m1 =>
        rw [invForward, if_pos hin, hcol] at h
        dsimp only at h
        obtain ⟨k, ms, hk, hkn, hmslen, hms0, hchain, hfailk, hhist⟩ :=
          ih n (i + 1) (passo + 1) m1 (hist ++ entries) h
        refine ⟨k + 1, m :: ms, by omega, by omega, by simp [hmslen], rfl, ?_, ?_, ?_⟩
        · intro j hj
          cases j with
          | zero =>
            simp only [List.getD_cons_zero, List.getD_cons_succ, Nat.add_zero, Nat.zero_add]
            rw [hcol, hms0]
          | succ j =>
            have hj2 : j < k := by omega
            have hstep := hchain j hj2
            simp only [List.getD_cons_succ]
            rw [show i + (j + 1) = (i + 1) + j from by omega,
              show passo + (j + 1) = (passo + 1) + j from by omega]
            exact hstep
        · simp only [List.getD_cons_succ]
          rw [show i + (k + 1) = (i + 1) + k from by omega,
            show passo + (k + 1) = (passo + 1) + k from by omega]
          exact hfailk
        · rw [invForward, if_pos hin, hcol]
          dsimp only
          rw [hhist, List.append_assoc]
          congr 1
          conv_rhs => rw [List.range_succ_eq_map, List.map_cons, List.flatten_cons]
          congr 1
          · simp only [List.getD_cons_zero, Nat.add_zero]
            rw [hcol]
          · rw [List.map_map]
            refine congrArg List.flatten (List.map_congr_left ?_)
            intro j hj
            rw [List.mem_range] at hj
            simp only [Function.comp_apply, List.getD_cons_succ]
            rw [show i + (j + 1) = (i + 1) + j from by omega,
              show passo + (j + 1) = (passo + 1) + j from by omega]
    · rw [invForward, if_neg hin] at h
      exact absurd h (by simp)

/-- C10: when `calcular_inversa` aborts with `NotInvertible`, the stored
history is exactly the initial `[A|I]` snapshot followed, column by column,
by the entries logged for each forward column that was processed: the
completed columns in order, ending with the log of the failing column (whose
zero pivot contributes only its step marker); the partial trace is neither
cleared nor rolled back on failure. -/
theorem C10_partial_history {e : Engine}
    (hfail : (calcular_inversa e).1 = Except.error PyErr.notInvertible) :
    ∃ (k : ℕ) (ms : List Mat), k < e.matriz.length ∧ ms.length = k + 1 ∧
      ms.getD 0 [] = (List.range e.matriz.length).map
        (fun i => e.matriz.getD i [] ++ idRow e.matriz.length i) ∧
      (∀ j, j < k → (invColuna e.matriz.length (ms.getD j []) j (j + 1)).1
          = some (ms.getD (j + 1) [])) ∧
      (invColuna e.matriz.length (ms.getD k []) k (k + 1)).1 = none ∧
      (calcular_inversa e).2.historico =
        LogEntry.matriz "Matriz aumentada [A|I] inicial:"
          (matriz_copia ((List.range e.matriz.length).map
            (fun i => e.matriz.getD i [] ++ idRow e.matriz.length i))) ::
        ((List.range (k + 1)).map
          (fun j => (invColuna e.matriz.length (ms.getD j []) j (j + 1)).2)).flatten := by
  obtain ⟨m, histE, pv⟩ := e
  dsimp only at hfail ⊢
  cases m with
  | nil =>
    unfold calcular_inversa at hfail
    dsimp only at hfail
    exact absurd hfail (by simp)
  | cons linha0 resto =>
    unfold calcular_inversa at hfail ⊢
    dsimp only at hfail ⊢
    by_cases hsq : (linha0 :: resto).length ≠ linha0.length
    · rw [if_pos hsq] at hfail
      exact absurd hfail (by simp)
    · rw [if_neg hsq] at hfail ⊢
      set A : Mat := linha0 :: resto with hA
      set len : ℕ := A.length with hlenA
      set aug : Mat := (List.range len).map (fun i => A.getD i [] ++ idRow len i) with haug
      set hist0 : List LogEntry :=
        [LogEntry.matriz "Matriz aumentada [A|I] inicial:" (matriz_copia aug)] with hhist0
      rcases hF : invForward len len 0 1 aug hist0 with ⟨o, histo⟩
      cases o with
      | some mF =>
        rw [hF] at hfail
        exact absurd hfail (by simp)
      | none =>
        obtain ⟨k, ms, hk, hkn, hmslen, hms0, hchain, hfailk, hhist⟩ :=
          invForward_fail_decomp len len 0 1 aug hist0 (by rw [hF])
        rw [hF] at hhist
        dsimp only at hhist
        simp only [Nat.zero_add, Nat.add_comm 1] at hchain hfailk hhist
        have hfin : histo = LogEntry.matriz "Matriz aumentada [A|I] inicial:"
            (matriz_copia aug) ::
            ((List.range (k + 1)).map
              (fun j => (invColuna len (ms.getD j []) j (j + 1)).2)).flatten := by
          rw [hhist, hhist0]
          rfl
        exact ⟨k, ms, by omega, hmslen, hms0, hchain, hfailk, hfin⟩

/-- C10 witness: the theorem applied to the singular matrix
`[[1,2,3],[4,5,6],[7,8,9]]`, whose inversion aborts with `NotInvertible`. -/
theorem C10_witness :
    ∃ (k : ℕ) (ms : List Mat),
      k < (init [[1, 2, 3], [4, 5, 6], [7, 8, 9]]).matriz.length ∧ ms.length = k + 1 ∧
      ms.getD 0 [] = (List.range (init [[1, 2, 3], [4, 5, 6], [7, 8, 9]]).matriz.length).map
        (fun i => (init [[1, 2, 3], [4, 5, 6], [7, 8, 9]]).matriz.getD i [] ++
          idRow (init [[1, 2, 3], [4, 5, 6], [7, 8, 9]]).matriz.length i) ∧
      (∀ j, j < k → (invColuna (init [[1, 2, 3], [4, 5, 6], [7, 8, 9]]).matriz.length
          (ms.getD j []) j (j + 1)).1 = some (ms.getD (j + 1) [])) ∧
      (invColuna (init [[1, 2, 3], [4, 5, 6], [7, 8, 9]]).matriz.length
          (ms.getD k []) k (k + 1)).1 = none ∧
      (calcular_inversa (init [[1, 2, 3], [4, 5, 6], [7, 8, 9]])).2.historico =
        LogEntry.matriz "Matriz aumentada [A|I] inicial:"
          (matriz_copia ((List.range (init [[1, 2, 3], [4, 5, 6], [7, 8, 9]]).matriz.length).map
            (fun i => (init [[1, 2, 3], [4, 5, 6], [7, 8, 9]]).matriz.getD i [] ++
              idRow (init [[1, 2, 3], [4, 5, 6], [7, 8, 9]]).matriz.length i))) ::
        ((List.range (k + 1)).map
          (fun j => (invColuna (init [[1, 2, 3], [4, 5, 6], [7, 8, 9]]).matriz.length
            (ms.getD j []) j (j + 1)).2)).flatten :=
  C10_partial_history (by rfl)

theorem hlen_hwrite (h : Heap) (r : ℕ) (v : List ℚ) : hlen (hwrite h r v) = hlen h := by
  simp [hlen, hwrite]

theorem hread_hwrite_ne {h : Heap} {r v t} (hne : t ≠ r) :
    hread (hwrite h r v) t = hread h t := by
  unfold hread hwrite
  rw [getD_set]
  rw [if_neg (fun hc => hne hc.1.symm)]

theorem hlen_halloc (h : Heap) (v : List ℚ) : hlen (halloc h v).1 = hlen h + 1 := by
  simp [hlen, halloc]

theorem hread_halloc_lt {h : Heap} {t : ℕ} (v : List ℚ) (ht : t < hlen h) :
    hread (halloc h v).1 t = hread h t := by
  unfold hread halloc
  dsimp only
  rw [List.getD_eq_getElem?_getD, List.getElem?_append_left ht, ← List.getD_eq_getElem?_getD]

theorem hread_halloc_self (h : Heap) (v : List ℚ) :
    hread (halloc h v).1 (halloc h v).2 = v := by
  unfold hread halloc
  dsimp only
  rw [List.getD_eq_getElem?_getD, List.getElem?_append_right (le_refl _)]
  simp

theorem length_hderef (h : Heap) (live : List ℕ) :
    (hderef h live).length = live.length := List.length_map _ _

theorem hallocList_spec (vs : List (List ℚ)) :
    ∀ h : Heap, hlen (hallocList h vs).1 = hlen h + vs.length ∧
      (∀ r ∈ (hallocList h vs).2, hlen h ≤ r ∧ r < hlen h + vs.length) ∧
      (∀ t, t < hlen h → hread (hallocList h vs).1 t = hread h t) ∧
      hderef (hallocList h vs).1 (hallocList h vs).2 = vs ∧
      (hallocList h vs).2.length = vs.length := by
  induction vs with
  | nil =>
    intro h
    exact ⟨by simp [hallocList], by simp [hallocList], fun t _ => rfl, rfl, rfl⟩
  | cons v vs ih =>
    intro h
    obtain ⟨ih1, ih2, ih3, ih4, ih5⟩ := ih (halloc h v).1
    unfold hallocList
    dsimp only
    have hv2 : (halloc h v).2 = hlen h := rfl
    refine ⟨?_, ?_, ?_, ?_, ?_⟩
    · rw [ih1, hlen_halloc]
      simp only [List.length_cons]
      omega
    · intro r hr
      rcases List.mem_cons.1 hr with hr | hr
    
      · rw [hr, hv2]
        constructor
        · exact le_refl _
        · simp only [List.length_cons]
          omega
      · have := ih2 r hr
        rw [hlen_halloc] at this
        simp only [List.length_cons]
        omega
    · intro t ht
      rw [ih3 t (by rw [hlen_halloc]; omega), hread_halloc_lt v ht]
    · unfold hderef
      rw [List.map_cons]
      congr 1
      · rw [ih3 _ (by rw [hlen_halloc, hv2]; omega), hread_halloc_self]
    · simp [ih5]

theorem LogOk_hwrite {h : Heap} {live : List ℕ} {log : HLog} {t : ℕ} (v : List ℚ)
    (hg : LogOk h live log) (ht : t ∈ live) : LogOk (hwrite h t v) live log := by
  intro e he
  obtain ⟨h1, h2⟩ := hg e he
  refine ⟨fun r hr => ⟨by rw [hlen_hwrite]; exact (h1 r hr).1, (h1 r hr).2⟩, ?_⟩
  rw [← h2]
  unfold hderef
  refine List.map_congr_left ?_
  intro r hr
  refine hread_hwrite_ne ?_
  intro hrt
  exact (h1 r hr).2 (by rw [hrt]; exact ht)

theorem LogOk_halloc {h : Heap} {live : List ℕ} {log : HLog} (v : List ℚ)
    (hg : LogOk h live log) : LogOk (halloc h v).1 live log := by
  intro e he
  obtain ⟨h1, h2⟩ := hg e he
  refine ⟨fun r hr => ⟨by rw [hlen_halloc]; exact Nat.lt_succ_of_lt (h1 r hr).1,
    (h1 r hr).2⟩, ?_⟩
  rw [← h2]
  unfold hderef
  exact List.map_congr_left (fun r hr => hread_halloc_lt v (h1 r hr).1)

theorem LogOk_mono_live {h : Heap} {live live' : List ℕ} {log : HLog}
    (hg : LogOk h live log)
    (hsub : ∀ r ∈ live', r ∈ live ∨ ∀ e ∈ log, r ∉ e.1) : LogOk h live' log := by
  intro e he
  obtain ⟨h1, h2⟩ := hg e he
  refine ⟨fun r hr => ⟨(h1 r hr).1, fun hrl => ?_⟩, h2⟩
  rcases hsub r hrl with hc | hc
  · exact (h1 r hr).2 hc
  · exact hc e he hr


theorem hsnapshot_ok {h : Heap} {live : List ℕ} {log : HLog}
    (hl : LiveOk h live) (hg : LogOk h live log) :
    LiveOk (hsnapshot h live log).1 live ∧
    LogOk (hsnapshot h live log).1 live (hsnapshot h live log).2 := by
  obtain ⟨hs1, hs2, hs3, hs4, hs5⟩ := hallocList_spec (live.map (hread h)) h
  unfold hsnapshot hcopia
  dsimp only
  constructor
  · intro r hr
    have := hl r hr
    rw [hs1]
    omega
  · intro e he
    rcases List.mem_append.1 he with he | he
    · obtain ⟨h1, h2⟩ := hg e he
      refine ⟨fun r hr => ⟨?_, (h1 r hr).2⟩, ?_⟩
      · rw [hs1]
        have := (h1 r hr).1
        omega
      · rw [← h2]
        unfold hderef
        exact List.map_congr_left (fun r hr => hs3 r (h1 r hr).1)
    · rw [List.mem_singleton] at he
      subst he
      refine ⟨fun r hr => ?_, rfl⟩
      have hb := hs2 r hr
      constructor
      · rw [hs1]
        omega
      · intro hrl
        have := hl r hrl
        omega

theorem LogClosed_of_LogOk {h : Heap} {live : List ℕ} {log : HLog}
    (hg : LogOk h live log) : LogClosed h log :=
  fun e he => ⟨fun r hr => ((hg e he).1 r hr).1, (hg e he).2⟩

theorem LogClosed_hallocList {h : Heap} {log : HLog} (vs : List (List ℚ))
    (hg : LogClosed h log) : LogClosed (hallocList h vs).1 log := by
  obtain ⟨hs1, hs2, hs3, hs4, hs5⟩ := hallocList_spec vs h
  intro e he
  obtain ⟨h1, h2⟩ := hg e he
  refine ⟨fun r hr => by rw [hs1]; have := h1 r hr; omega, ?_⟩
  rw [← h2]
  unfold hderef
  exact List.map_congr_left (fun r hr => hs3 r (h1 r hr))

theorem LogClosed_hsnapshot {h : Heap} {live : List ℕ} {log : HLog}
    (hg : LogClosed h log) :
    LogClosed (hsnapshot h live log).1 (hsnapshot h live log).2 := by
  obtain ⟨hs1, hs2, hs3, hs4, hs5⟩ := hallocList_spec (live.map (hread h)) h
  unfold hsnapshot hcopia
  dsimp only
  intro e he
  rcases List.mem_append.1 he with he | he
  · exact LogClosed_hallocList _ hg e he
  · rw [List.mem_singleton] at he
    subst he
    refine ⟨fun r hr => ?_, rfl⟩
    have := hs2 r hr
    rw [hs1]
    omega

theorem length_htrocar (live : List ℕ) (i j : ℕ) :
    (htrocar live i j).length = live.length := by
  unfold htrocar
  split <;> simp

theorem mem_htrocar {live : List ℕ} {i j : ℕ} (hi : i < live.length)
    (hj : j < live.length) : ∀ r ∈ htrocar live i j, r ∈ live := by
  unfold htrocar
  split
  · intro r hr
    rcases List.mem_or_eq_of_mem_set hr with hr1 | hr1
    · rcases List.mem_or_eq_of_mem_set hr1 with hr2 | hr2
      · exact hr2
      · rw [hr2, List.getD_eq_getElem live 0 hj]
        exact List.getElem_mem hj
    · rw [hr1, List.getD_eq_getElem live 0 hi]
      exact List.getElem_mem hi
  · exact fun r hr => hr

theorem htrocar_ok {h : Heap} {live : List ℕ} {log : HLog} {i j : ℕ}
    (hi : i < live.length) (hj : j < live.length)
    (hl : LiveOk h live) (hg : LogOk h live log) :
    (htrocar live i j).length = live.length ∧ LiveOk h (htrocar live i j) ∧
    LogOk h (htrocar live i j) log :=
  ⟨length_htrocar live i j,
   fun r hr => hl r (mem_htrocar hi hj r hr),
   LogOk_mono_live hg (fun r hr => Or.inl (mem_htrocar hi hj r hr))⟩

theorem set_fresh_ok {h : Heap} {live : List ℕ} {log : HLog} (v : List ℚ) (pos : ℕ)
    (hl : LiveOk h live) (hg : LogOk h live log) :
    (live.set pos (halloc h v).2).length = live.length ∧
    LiveOk (halloc h v).1 (live.set pos (halloc h v).2) ∧
    LogOk (halloc h v).1 (live.set pos (halloc h v).2) log := by
  have hv2 : (halloc h v).2 = hlen h := rfl
  refine ⟨by simp, ?_, ?_⟩
  · intro r hr
    rcases List.mem_or_eq_of_mem_set hr with hr | hr
    · rw [hlen_halloc]
      exact Nat.lt_succ_of_lt (hl r hr)
    · rw [hr, hv2, hlen_halloc]
      omega
  · refine LogOk_mono_live (LogOk_halloc v hg) (fun r hr => ?_)
    rcases List.mem_or_eq_of_mem_set hr with hr | hr
    · exact Or.inl hr
    · subst hr
      right
      intro e he hre
      have hb := ((hg e he).1 _ hre).1
      rw [hv2] at hb
      exact absurd hb (lt_irrefl _)

theorem hcombinar_ok {h : Heap} {live : List ℕ} {log : HLog}
    {alvo origem : ℕ} {esc : ℚ} (hl : LiveOk h live) (hg : LogOk h live log) :
    (hcombinar h live alvo origem esc).2.length = live.length ∧
    LiveOk (hcombinar h live alvo origem esc).1 (hcombinar h live alvo origem esc).2 ∧
    LogOk (hcombinar h live alvo origem esc).1 (hcombinar h live alvo origem esc).2 log := by
  unfold hcombinar
  split
  · exact set_fresh_ok _ _ hl hg
  · exact ⟨rfl, hl, hg⟩

theorem hmultiplicar_ok {h : Heap} {live : List ℕ} {log : HLog}
    {linha : ℕ} {esc : ℚ} (hl : LiveOk h live) (hg : LogOk h live log) :
    (hmultiplicar h live linha esc).2.length = live.length ∧
    LiveOk (hmultiplicar h live linha esc).1 (hmultiplicar h live linha esc).2 ∧
    LogOk (hmultiplicar h live linha esc).1 (hmultiplicar h live linha esc).2 log := by
  unfold hmultiplicar
  split
  · exact set_fresh_ok _ _ hl hg
  · exact ⟨rfl, hl, hg⟩

theorem hwrite_live_ok {h : Heap} {live : List ℕ} {log : HLog} {k : ℕ} (v : List ℚ)
    (hk : k < live.length) (hl : LiveOk h live) (hg : LogOk h live log) :
    LiveOk (hwrite h (live.getD k 0) v) live ∧
    LogOk (hwrite h (live.getD k 0) v) live log := by
  have hmem : live.getD k 0 ∈ live := by
    rw [List.getD_eq_getElem live 0 hk]
    exact List.getElem_mem hk
  exact ⟨fun r hr => by rw [hlen_hwrite]; exact hl r hr, LogOk_hwrite v hg hmem⟩

theorem helimBelow_ok (pivot_linha pivot_col : ℕ) (ls : List ℕ) :
    ∀ (s : HState) (linhas : ℕ), SOk linhas s →
      SOk linhas (helimBelow pivot_linha pivot_col ls s) := by
  induction ls with
  | nil => exact fun s linhas hs => hs
  | cons i resto ih =>
    intro s linhas hs
    obtain ⟨h1, h2, h3⟩ := hs
    unfold helimBelow
    split
    · dsimp only
      apply ih
      obtain ⟨hc1, hc2, hc3⟩ := @hcombinar_ok s.heap s.live s.log i pivot_linha
        (-(mget (hderef s.heap s.live) i pivot_col)) h2 h3
      obtain ⟨hq1, hq2⟩ := hsnapshot_ok hc2 hc3
      exact ⟨hc1.trans h1, hq1, hq2⟩
    · exact ih s linhas ⟨h1, h2, h3⟩

theorem SOk_swapSnap {linhas : ℕ} {s : HState} (hs : SOk linhas s) {i j : ℕ}
    (hi : i < linhas) (hj : j < linhas) :
    SOk linhas ⟨(hsnapshot s.heap (htrocar s.live i j) s.log).1, htrocar s.live i j,
      (hsnapshot s.heap (htrocar s.live i j) s.log).2⟩ := by
  obtain ⟨h1, h2, h3⟩ := hs
  obtain ⟨ht1, ht2, ht3⟩ := htrocar_ok (by rw [h1]; exact hi) (by rw [h1]; exact hj) h2 h3
  obtain ⟨hq1, hq2⟩ := hsnapshot_ok ht2 ht3
  exact ⟨ht1.trans h1, hq1, hq2⟩

theorem SOk_multSnap {linhas : ℕ} {s : HState} (hs : SOk linhas s) (linha : ℕ) (esc : ℚ) :
    SOk linhas ⟨(hsnapshot (hmultiplicar s.heap s.live linha esc).1
        (hmultiplicar s.heap s.live linha esc).2 s.log).1,
      (hmultiplicar s.heap s.live linha esc).2,
      (hsnapshot (hmultiplicar s.heap s.live linha esc).1
        (hmultiplicar s.heap s.live linha esc).2 s.log).2⟩ := by
  obtain ⟨h1, h2, h3⟩ := hs
  obtain ⟨hm1, hm2, hm3⟩ := @hmultiplicar_ok s.heap s.live s.log linha esc h2 h3
  obtain ⟨hq1, hq2⟩ := hsnapshot_ok hm2 hm3
  exact ⟨hm1.trans h1, hq1, hq2⟩

theorem hforwardLoop_ok (fuel : ℕ) :
    ∀ (linhas colunas : ℕ) (s : HState) (pivos : List (ℕ × ℕ)) (pl pc : ℕ),
      SOk linhas s → SOk linhas (hforwardLoop fuel linhas colunas s pivos pl pc).1 := by
  induction fuel with
  | zero => exact fun _ _ s _ _ _ hs => hs
  | succ fuel ih =>
    intro linhas colunas s pivos pl pc hs
    rw [hforwardLoop]
    split
    next hcond =>
      rcases hfind : encontrar_pivo (hderef s.heap s.live) pc pl with _ | max_row
      · exact ih linhas colunas s pivos pl (pc + 1) hs
      · have hmrb : max_row < linhas := by
          have := (encontrar_pivo_some hfind).2.1
          rw [length_hderef] at this
          rw [← hs.1]
          exact this
        have hplb : pl < linhas := hcond.1
        dsimp only
        split
        · exact ih linhas colunas s pivos pl (pc + 1) hs
        · apply ih
          apply helimBelow_ok
          split
          · split
            · exact SOk_multSnap (SOk_swapSnap hs hplb hmrb) pl _
            · exact SOk_swapSnap hs hplb hmrb
          · split
            · exact SOk_multSnap hs pl _
            · exact hs
    next => exact hs

theorem hbackLoop_ok (ps : List (ℕ × ℕ)) :
    ∀ (s : HState) (linhas : ℕ), SOk linhas s → SOk linhas (hbackLoop ps s) := by
  induction ps with
  | nil => exact fun s _ hs => hs
  | cons p resto ih =>
    intro s linhas hs
    obtain ⟨linha, col⟩ := p
    unfold hbackLoop
    exact ih _ _ (helimBelow_ok _ _ _ _ _ hs)

theorem hescalonar_ok (h : Heap) (live : List ℕ) (hl : LiveOk h live) :
    LogClosed (hescalonar h live).heap (hescalonar h live).log := by
  unfold hescalonar
  dsimp only
  split
  · intro e he
    exact absurd he (List.not_mem_nil e)
  · have hg0 : LogOk h live [] := fun e he => absurd he (List.not_mem_nil e)
    obtain ⟨ha1, ha2⟩ := hsnapshot_ok hl hg0
    have hfwd := hforwardLoop_ok ((hread h (live.getD 0 0)).length) live.length
      ((hread h (live.getD 0 0)).length)
      ⟨(hsnapshot h live []).1, live, (hsnapshot h live []).2⟩ [] 0 0 ⟨rfl, ha1, ha2⟩
    have hbwd := hbackLoop_ok
      ((hforwardLoop ((hread h (live.getD 0 0)).length) live.length
        ((hread h (live.getD 0 0)).length)
        ⟨(hsnapshot h live []).1, live, (hsnapshot h live []).2⟩ [] 0 0).2.reverse)
      _ _ hfwd
    obtain ⟨hb1, hb2, hb3⟩ := hbwd
    obtain ⟨hq1, hq2⟩ := hsnapshot_ok hb2 hb3
    exact LogClosed_of_LogOk hq2

theorem SOk_writeSnap {linhas : ℕ} {s : HState} (hs : SOk linhas s) {k : ℕ}
    (hk : k < linhas) (v : List ℚ) :
    SOk linhas ⟨(hsnapshot (hwrite s.heap (s.live.getD k 0) v) s.live s.log).1, s.live,
      (hsnapshot (hwrite s.heap (s.live.getD k 0) v) s.live s.log).2⟩ := by
  obtain ⟨h1, h2, h3⟩ := hs
  obtain ⟨hw1, hw2⟩ := hwrite_live_ok v (by rw [h1]; exact hk) h2 h3
  obtain ⟨hq1, hq2⟩ := hsnapshot_ok hw1 hw2
  exact ⟨h1, hq1, hq2⟩

theorem hinvElimBelow_ok (n i : ℕ) (ls : List ℕ) :
    ∀ s : HState, SOk n s → (∀ k ∈ ls, k < n) → SOk n (hinvElimBelow n i ls s) := by
  induction ls with
  | nil => exact fun s hs _ => hs
  | cons k ks ih =>
    intro s hs hks
    unfold hinvElimBelow
    split
    · dsimp only
      apply ih
      · exact SOk_writeSnap hs (hks k (List.mem_cons_self _ _)) _
      · exact fun t ht => hks t (List.mem_cons_of_mem _ ht)
    · exact ih s hs (fun t ht => hks t (List.mem_cons_of_mem _ ht))

theorem hinvColuna_ok {n : ℕ} {s : HState} (hs : SOk n s) (i : ℕ) (hi : i < n) :
    SOk n (hinvColuna n s i).2 := by
  have hpb : invPivo (hderef s.heap s.live) i (List.range' (i + 1) (n - (i + 1))) i < n := by
    rcases (invPivo_spec (hderef s.heap s.live) i (List.range' (i + 1) (n - (i + 1))) i).1
      with hp | hp
    · rw [hp]
      exact hi
    · rw [List.mem_range'_1] at hp
      omega
  unfold hinvColuna
  dsimp only
  split
  · exact hs
  · apply hinvElimBelow_ok
    · split
      · split
        · exact SOk_writeSnap (SOk_swapSnap hs hi hpb) hi _
        · exact SOk_swapSnap hs hi hpb
      · split
        · exact SOk_writeSnap hs hi _
        · exact hs
    · intro t ht
      rw [List.mem_range'_1] at ht
      omega

theorem hinvForward_ok (fuel : ℕ) :
    ∀ (n i : ℕ) (s : HState), SOk n s → SOk n (hinvForward fuel n i s).2 := by
  induction fuel with
  | zero => exact fun _ _ s hs => hs
  | succ fuel ih =>
    intro n i s hs
    rw [hinvForward]
    split
    next hin =>
      dsimp only
      split
      · exact ih n (i + 1) _ (hinvColuna_ok hs i hin)
      · exact hinvColuna_ok hs i hin
    next => exact hs

theorem hinvBackward_ok (n : ℕ) (il : List ℕ) :
    ∀ s : HState, SOk n s → (∀ i ∈ il, i < n) → SOk n (hinvBackward n il s) := by
  induction il with
  | nil => exact fun s hs _ => hs
  | cons i il ih =>
    intro s hs hil
    unfold hinvBackward
    apply ih
    · apply hinvElimBelow_ok
      · exact hs
      · intro t ht
        rw [List.mem_reverse, List.mem_range] at ht
        have := hil i (List.mem_cons_self _ _)
        omega
    · exact fun t ht => hil t (List.mem_cons_of_mem _ ht)

theorem hcalcular_ok (h : Heap) (live : List ℕ) (hl : LiveOk h live) :
    LogClosed (hcalcular_inversa h live).heap (hcalcular_inversa h live).log := by
  unfold hcalcular_inversa
  dsimp only
  split
  · intro e he
    exact absurd he (List.not_mem_nil e)
  · set vsAug := (List.range live.length).map
      (fun i => hread h (live.getD i 0) ++ idRow live.length i) with hvs
    obtain ⟨hs1, hs2, hs3, hs4, hs5⟩ := hallocList_spec vsAug h
    have hlaug : LiveOk (hallocList h vsAug).1 (hallocList h vsAug).2 := by
      intro r hr
      rw [hs1]
      exact (hs2 r hr).2
    have hgaug : LogOk (hallocList h vsAug).1 (hallocList h vsAug).2 [] :=
      fun e he => absurd he (List.not_mem_nil e)
    obtain ⟨ha1, ha2⟩ := hsnapshot_ok hlaug hgaug
    have hlen2 : (hallocList h vsAug).2.length = live.length := by
      rw [hs5, hvs]
      simp
    have hfwd := hinvForward_ok live.length live.length 0
      ⟨(hsnapshot (hallocList h vsAug).1 (hallocList h vsAug).2 []).1,
        (hallocList h vsAug).2,
        (hsnapshot (hallocList h vsAug).1 (hallocList h vsAug).2 []).2⟩ ⟨hlen2, ha1, ha2⟩
    split
    · exact LogClosed_of_LogOk hfwd.2.2
    · have hbwd := hinvBackward_ok live.length ((List.range' 1 (live.length - 1)).reverse)
        _ hfwd ?_
      · obtain ⟨hb1, hb2, hb3⟩ := hbwd
        exact LogClosed_hsnapshot (LogClosed_hallocList _ (LogClosed_of_LogOk hb3))
      · intro t ht
        rw [List.mem_reverse, List.mem_range'_1] at ht
        omega

/-- C7: in the object-identity model of the mutable rows, every matrix
recorded in a history entry of `escalonar` or of `calcular_inversa` is an
independent deep copy: at the end of the run, dereferencing the row objects
held by each logged entry still yields exactly the matrix value recorded
when the entry was logged, for every input — so no later row operation
(swaps, row rebuilding, or the inversion's in-place element writes) ever
reaches a recorded snapshot. -/
theorem C7_snapshots_deep_copies (m : Mat) :
    ((hescalonar (hinit m).1 (hinit m).2).log).map
      (fun e => hderef (hescalonar (hinit m).1 (hinit m).2).heap e.1) =
    ((hescalonar (hinit m).1 (hinit m).2).log).map (fun e => e.2) ∧
    ((hcalcular_inversa (hinit m).1 (hinit m).2).log).map
      (fun e => hderef (hcalcular_inversa (hinit m).1 (hinit m).2).heap e.1) =
    ((hcalcular_inversa (hinit m).1 (hinit m).2).log).map (fun e => e.2) := by
  have hl : LiveOk (hinit m).1 (hinit m).2 := by
    intro r hr
    show r < hlen (hallocList ⟨[]⟩ m).1
    rw [(hallocList_spec m ⟨[]⟩).1]
    have := ((hallocList_spec m ⟨[]⟩).2.1 r hr).2
    omega
  constructor
  · exact List.map_congr_left (fun e he => (hescalonar_ok _ _ hl e he).2)
  · exact List.map_congr_left (fun e he => (hcalcular_ok _ _ hl e he).2)
end MatrizEscada
